import Mathlib

/-!
Shallow embedding of the `connect-words` level generator
(`src/utils/LevelGenerator.ts`) and of the play-time path state machine
(`Level1Scene` in the bundled scene file), together with proofs of the
specification claims about them.

Conventions of the embedding:
* JavaScript numbers that the code only ever uses as integers are embedded
  as `Int`/`Nat`; the 31-bit mask `& 0x7fffffff` becomes `% 2^31`.
* JavaScript floats in `[0,1)` coming from the random source are embedded
  as `Rat`; `Math.floor` becomes `Int.floor`.
* `Math.random` / a seeded generator is embedded as a stream of rationals
  `Nat → Rat`; consuming one value shifts the stream.
* Fallible array indexing (`a[i]` yielding `undefined` and subsequently
  crashing) is embedded with `Option`.
* The canonical string edge key `"r1,c1-r2,c2"` is embedded as the ordered
  pair of positions produced by the same comparison.
-/

/-- A grid cell position (`{row, col}` in the source). -/
structure Pos where
  row : Int
  col : Int
deriving DecidableEq, Repr

/-- A stream of random values, as produced by `Math.random` or the seeded
generator: index `n` is the value of the `n`-th future call. -/
def Rng : Type := Nat → Rat

/-- Consume one random value: return it together with the shifted stream. -/
def rngNext (g : Rng) : Rat × Rng := (g 0, fun n => g (n + 1))

/-- All values of a stream lie in the interval `[0,1)`. -/
def RngBounded (g : Rng) : Prop := ∀ n, 0 ≤ g n ∧ g n < 1

/-- One step of the seeded generator's state update:
`s = (s * 1103515245 + 12345) & 0x7fffffff` in the source, with the mask as
reduction modulo `2^31`.  The source runs this in float64, where for states
above `2^23` the product exceeds `2^53` and is rounded before the mask, so
this exact-integer reading is an idealization of the source arithmetic: its
concrete values enter no theorem below — the seeded stream is used only where
the stream being a pure function of the seed is what matters (determinism and
the singleton wrapper). -/
def lcgStep (s : Nat) : Nat := (s * 1103515245 + 12345) % 2 ^ 31

/-- The value returned by one call of the seeded generator: the *updated*
state divided by `0x7fffffff = 2^31 - 1`. -/
def lcgValue (s : Nat) : Rat := (lcgStep s : Rat) / ((2 : Rat) ^ 31 - 1)

/-- The state after `n` calls starting from `seed`. -/
def lcgState (seed : Nat) : Nat → Nat
  | 0 => seed
  | n + 1 => lcgStep (lcgState seed n)

/-- The stream of values produced by `seededRandom(seed)`:
the `n`-th call returns `lcgValue` of the state reached after `n` calls
(an idealized stream, see `lcgStep`; no theorem depends on its values). -/
def lcgStream (seed : Nat) : Rng := fun n => lcgValue (lcgState seed n)

/-- `new LevelGenerator(seed)`: with a seed the instance's random source is
the seeded stream, without one it is the ambient `Math.random` stream. -/
def mkGenerator (seed : Option Nat) (ambient : Rng) : Rng :=
  match seed with
  | some s => lcgStream s
  | none => ambient

/-- The canonical edge key `normalizeEdge`: the string `"r1,c1-r2,c2"` with the
lexicographically smaller cell first, embedded as the ordered pair of cells. -/
abbrev EdgeKey := Pos × Pos

/-- `normalizeEdge(p1, p2)` from the source (same comparison, pair instead of
string). -/
def normalizeEdge (p1 p2 : Pos) : EdgeKey :=
  if p1.row < p2.row ∨ (p1.row = p2.row ∧ p1.col < p2.col) then (p1, p2) else (p2, p1)

/-- Wall segment orientation. -/
inductive WallOrientation where
  | horizontal
  | vertical
deriving DecidableEq, Repr

/-- `WallSegment` from the source. -/
structure WallSegment where
  cell1 : Pos
  cell2 : Pos
  orientation : WallOrientation
deriving DecidableEq, Repr

/-- The canonical key of a wall segment. -/
def segKey (s : WallSegment) : EdgeKey := normalizeEdge s.cell1 s.cell2

/-- `Wall`: 2-3 connected segments. -/
structure Wall where
  segments : List WallSegment
deriving DecidableEq, Repr

/-- `LevelConfig` from the source.  `letterOrderByPosition` (a `Map` from the
string key `"row,col"` to the 1-based letter order) is embedded as an
association list from the cell to the order, in insertion order. -/
structure LevelConfig where
  word : String
  grid : List (List Char)
  startPosition : Pos
  difficulty : Nat
  gridCols : Nat
  gridRows : Nat
  letterOrderByPosition : List (Pos × Nat)
  walls : List Wall
deriving DecidableEq, Repr

/-- `LEVEL_WORD_SEQUENCE` (levels 1-9). -/
def LEVEL_WORD_SEQUENCE : List String :=
  ["REMIX", "GAMES", "TOKEN", "CRYPTO", "WALLET", "GAMER", "STAKING", "TRADING", "REWARDS"]

/-- `HARD_WORDS` (level 10+). -/
def HARD_WORDS : List String := ["ETHEREUM", "FARCASTER", "METAVERSE", "BLOCKCHAIN"]

/-- `GRID_CONFIG_BY_DIFFICULTY`, as `(cols, rows)` pairs. -/
def GRID_CONFIG_BY_DIFFICULTY : List (Nat × Nat) := [(5, 6), (6, 7), (7, 7), (7, 8)]

/-- Word selection in `generateLevel`: the fixed sequence for levels up to 9
(`LEVEL_WORD_SEQUENCE.length`), rotation through `HARD_WORDS` from level 10 on.
Indexing is fallible (`Option`) exactly where the JavaScript array access can
yield `undefined`. -/
def wordFor (difficulty : Nat) : Option String :=
  if difficulty ≤ LEVEL_WORD_SEQUENCE.length then LEVEL_WORD_SEQUENCE.get? (difficulty - 1)
  else HARD_WORDS.get? ((difficulty - 10) % HARD_WORDS.length)

/-- The `while (cols * rows < minCells)` growth loop of `generateLevel`,
with explicit fuel (the source loop terminates because the product grows each
iteration; `fuel = minCells` always suffices, see `growGridLoop_spec`). -/
def growGridLoop (minCells : Nat) : Nat → Nat → Nat → Nat × Nat
  | 0, cols, rows => (cols, rows)
  | fuel + 1, cols, rows =>
    if cols * rows < minCells then
      if cols ≤ rows then growGridLoop minCells fuel (cols + 1) rows
      else growGridLoop minCells fuel cols (rows + 1)
    else (cols, rows)

/-- `chooseStartPosition`: the candidate pool, in the exact push order of the
source (corners; then, above difficulty 3, the top/bottom and left/right border
cells; then, above difficulty 7, the three center cells). -/
def startCandidates (cols rows difficulty : Nat) : List Pos :=
  [⟨0, 0⟩, ⟨0, (cols : Int) - 1⟩, ⟨(rows : Int) - 1, 0⟩, ⟨(rows : Int) - 1, (cols : Int) - 1⟩]
  ++ (if 3 < difficulty then
        (List.range' 1 (cols - 2)).flatMap
          (fun c => [⟨0, c⟩, ⟨(rows : Int) - 1, c⟩])
        ++ (List.range' 1 (rows - 2)).flatMap
          (fun r => [⟨r, 0⟩, ⟨r, (cols : Int) - 1⟩])
      else [])
  ++ (if 7 < difficulty then
        [⟨rows / 2, cols / 2⟩, ⟨(rows / 2 : Int) - 1, cols / 2⟩, ⟨rows / 2, (cols / 2 : Int) - 1⟩]
      else [])

/-- `chooseStartPosition`: pick `positions[Math.floor(rng() * positions.length)]`.
The index is fallible when the random value reaches 1. -/
def chooseStartPosition (cols rows difficulty : Nat) (g : Rng) : Option Pos × Rng :=
  let positions := startCandidates cols rows difficulty
  let (v, g1) := rngNext g
  (positions.get? (Int.floor (v * positions.length)).toNat, g1)

/-- The four step directions of the path builder, in source order
(up, down, left, right). -/
def directions : List (Int × Int) := [(-1, 0), (1, 0), (0, -1), (0, 1)]

/-- Bounds check `nr >= 0 && nr < rows && nc >= 0 && nc < cols`. -/
def inBoundsB (cols rows : Nat) (p : Pos) : Bool :=
  decide (0 ≤ p.row ∧ p.row < (rows : Int) ∧ 0 ≤ p.col ∧ p.col < (cols : Int))

/-- `countUnvisitedNeighbors` of the path builder.  The source's `visited`
matrix holds exactly the cells already on the path, so membership in the
partial path stands in for it. -/
def countUnvisitedNeighbors (cols rows : Nat) (visited : List Pos) (p : Pos) : Nat :=
  directions.countP fun d =>
    let q : Pos := ⟨p.row + d.1, p.col + d.2⟩
    inBoundsB cols rows q && !(decide (q ∈ visited))

/-- `getNextMoves` of the path builder: collect the in-bounds unvisited
orthogonal neighbors with score `accessibility + rng() * 0.5` (one random draw
per candidate, in direction order), then sort ascending by score.
`Array.prototype.sort` is stable, as is `List.mergeSort`. -/
def getNextMoves (cols rows : Nat) (visited : List Pos) (p : Pos) (g : Rng) :
    List Pos × Rng :=
  let step := fun (acc : List (Pos × Rat) × Rng) (d : Int × Int) =>
    let q : Pos := ⟨p.row + d.1, p.col + d.2⟩
    if inBoundsB cols rows q && !(decide (q ∈ visited)) then
      let (v, g1) := rngNext acc.2
      (acc.1 ++ [(q, (countUnvisitedNeighbors cols rows visited q : Rat) + v * (1 / 2))], g1)
    else acc
  let (moves, g1) := directions.foldl step ([], g)
  ((moves.mergeSort fun a b => decide (a.2 ≤ b.2)).map Prod.fst, g1)

/-- The `while (path.length < totalCells)` loop of `generateHamiltonianPath`,
with explicit fuel.  Each iteration appends one cell, so `cols * rows` fuel is
never exhausted; `none` is the dead-end failure return of the source.  With
probability 0.15 the second-best move is taken when one exists (the random
draw happens only when there are at least two candidates, matching the
short-circuit `nextMoves.length > 1 && this.rng() < 0.15`). -/
def genPathLoop (cols rows : Nat) : Nat → List Pos → Pos → Rng → Option (List Pos) × Rng
  | 0, path, _, g => if path.length < cols * rows then (none, g) else (some path, g)
  | fuel + 1, path, cur, g =>
    if path.length < cols * rows then
      let (moves, g1) := getNextMoves cols rows path cur g
      match moves with
      | [] => (none, g1)
      | [m] => genPathLoop cols rows fuel (path ++ [m]) m g1
      | m0 :: m1 :: _ =>
        let (v, g2) := rngNext g1
        let next := if v < (15 : Rat) / 100 then m1 else m0
        genPathLoop cols rows fuel (path ++ [next]) next g2
    else (some path, g)

/-- `generateHamiltonianPath(cols, rows, start)`: start from `[start]`. -/
def generateHamiltonianPath (cols rows : Nat) (start : Pos) (g : Rng) :
    Option (List Pos) × Rng :=
  genPathLoop cols rows (cols * rows) [start] start g

/-- The per-letter spacing `usableCells / (numLetters - 1)` (exact rational in
place of the source's float division). -/
def cpSpacing (T n : Nat) : Rat := ((T : Rat) - 2) / ((n : Rat) - 1)

/-- One iteration of the first loop of `calculateLetterPositions` (index `i`
of `n` letters over a path of `T` cells): first letter at
`min(1 + floor(rng()*2), T - n)`, last letter at `T - 1`, interior letters at
the clamped jittered base position, followed by the in-loop collision fix
`if (pos <= positions[i-1]) pos = positions[i-1] + 2`. -/
def cpStep (T n : Nat) (st : List Int × Rng) (i : Nat) : List Int × Rng :=
  let acc := st.1
  let prev := acc.getLastD 0
  let (pos, g1) :=
    if i = 0 then
      let (v, g1) := rngNext st.2
      (min (1 + Int.floor (v * 2)) ((T : Int) - (n : Int)), g1)
    else if i = n - 1 then ((T : Int) - 1, st.2)
    else
      let (v, g1) := rngNext st.2
      let basePos := Int.floor ((1 : Rat) + (i : Rat) * cpSpacing T n)
      let variation := Int.floor (v * 3) - 1
      let p1 := max (prev + 2) (basePos + variation)
      (min p1 ((T : Int) - ((n : Int) - (i : Int))), g1)
  let pos := if 0 < i ∧ pos ≤ prev then prev + 2 else pos
  (acc ++ [pos], g1)

/-- The first loop of `calculateLetterPositions`. -/
def cpBuild (T n : Nat) (g : Rng) : List Int × Rng :=
  (List.range n).foldl (cpStep T n) ([], g)

/-- The final repair loop of `calculateLetterPositions`: clamp positions that
ran past the end of the path, then restore strict monotonicity left to right
(each comparison uses the already-repaired predecessor, as the source mutates
in place). -/
def cpRepairLoop (T : Int) (len : Nat) : Nat → List Int → List Int → List Int
  | _, acc, [] => acc
  | i, acc, p :: rest =>
    let p1 := if T ≤ p then T - 1 - ((len : Int) - 1 - (i : Int)) else p
    let p2 := if 0 < i ∧ p1 ≤ acc.getLastD 0 then acc.getLastD 0 + 1 else p1
    cpRepairLoop T len (i + 1) (acc ++ [p2]) rest

/-- `calculateLetterPositions(path, word, difficulty)`.  The `difficulty`
parameter is unused in the source body and therefore omitted here.  Returns
the letter positions (path indices) and the advanced random stream. -/
def calculateLetterPositions (path : List Pos) (word : String) (g : Rng) :
    List Int × Rng :=
  let T := path.length
  let n := word.length
  let (ps, g1) := cpBuild T n g
  (cpRepairLoop (T : Int) n 0 [] ps, g1)

/-- `path[idx]` for a signed index: `undefined` (here `none`) when out of
range. -/
def posAt (path : List Pos) (idx : Int) : Option Pos :=
  if 0 ≤ idx then path.get? idx.toNat else none

/-- `createGrid`: start from an all-`'.'` grid and write `word[i]` at
`path[letterPositions[i]]`.  The row access `grid[pos.row]` is fallible
(a crash in the source when `pos` is out of range), hence `Option`; the
column write uses `List.set`, which like the in-range source write changes
exactly that entry. -/
def createGrid (cols rows : Nat) (path : List Pos) (word : String)
    (letterPositions : List Int) : Option (List (List Char)) :=
  let empty : List (List Char) := List.replicate rows (List.replicate cols '.')
  (List.range word.length).foldlM
    (fun grid i =>
      (letterPositions.get? i).bind fun idx =>
      (posAt path idx).bind fun pos =>
      (word.toList.get? i).bind fun ch =>
      if 0 ≤ pos.row ∧ pos.row.toNat < grid.length then
        (grid.get? pos.row.toNat).map fun rowList =>
          grid.set pos.row.toNat (rowList.set pos.col.toNat ch)
      else none)
    empty

/-- `createLetterOrderMap`: `map.set("row,col", i + 1)` for each letter index,
embedded as an association list in insertion order (all keys are distinct in
every use proved below, so `Map.set` never overwrites). -/
def createLetterOrderMap (path : List Pos) (word : String)
    (letterPositions : List Int) : Option (List (Pos × Nat)) :=
  (List.range word.length).foldlM
    (fun acc i =>
      (letterPositions.get? i).bind fun idx =>
      (posAt path idx).map fun pos =>
      acc ++ [(pos, i + 1)])
    []

/-- The canonical keys of the edges between consecutive path cells. -/
def pathEdgeKeys (path : List Pos) : List EdgeKey :=
  (path.zip path.tail).map fun pr => normalizeEdge pr.1 pr.2

/-- Wall count by difficulty (level 7-8: 1, 9-10: 2, 11-13: 3, 14+: 4). -/
def numWallsFor (difficulty : Nat) : Nat :=
  if difficulty ≤ 8 then 1
  else if difficulty ≤ 10 then 2
  else if difficulty ≤ 13 then 3
  else 4

/-- The pool of grid edges not used by the path: all horizontal edges (between
vertically adjacent cells), then all vertical edges, in source enumeration
order, each kept only if its key is not a path-edge key. -/
def availableEdges (cols rows : Nat) (pathKeys : List EdgeKey) : List WallSegment :=
  ((List.range (rows - 1)).flatMap fun (r : Nat) =>
    (List.range cols).filterMap fun (c : Nat) =>
      let p1 : Pos := ⟨(r : Int), (c : Int)⟩
      let p2 : Pos := ⟨(r : Int) + 1, (c : Int)⟩
      if normalizeEdge p1 p2 ∈ pathKeys then none
      else some ⟨p1, p2, WallOrientation.horizontal⟩)
  ++ ((List.range rows).flatMap fun (r : Nat) =>
    (List.range (cols - 1)).filterMap fun (c : Nat) =>
      let p1 : Pos := ⟨(r : Int), (c : Int)⟩
      let p2 : Pos := ⟨(r : Int), (c : Int) + 1⟩
      if normalizeEdge p1 p2 ∈ pathKeys then none
      else some ⟨p1, p2, WallOrientation.vertical⟩)

/-- The Fisher-Yates loop of `generateWalls`, by the loop index `i`
(`len-1` down to `1`), `j = Math.floor(rng() * (i + 1))`.  The two array reads
of the swap are fallible when `j` falls out of range (random value 1). -/
def fyLoop : Nat → List WallSegment → Rng → Option (List WallSegment × Rng)
  | 0, l, g => some (l, g)
  | Nat.succ k, l, g =>
    let i := k + 1
    let (v, g1) := rngNext g
    let j := (Int.floor (v * ((i : Rat) + 1))).toNat
    match l.get? i, l.get? j with
    | some a, some b => fyLoop k ((l.set i b).set j a) g1
    | _, _ => none

/-- Shuffle the available-edge pool. -/
def shuffleEdges (l : List WallSegment) (g : Rng) : Option (List WallSegment × Rng) :=
  fyLoop (l.length - 1) l g

/-- `edgeMap.get(key)`: the available pool's keys are pairwise distinct, so a
first-match lookup on the pool is the map lookup. -/
def edgeMapGet (avail : List WallSegment) (k : EdgeKey) : Option WallSegment :=
  avail.find? fun s => decide (segKey s = k)

/-- The four neighbor cells probed by `findConnectedSegment`, in source order. -/
def neighborsOf (cell : Pos) : List Pos :=
  [⟨cell.row - 1, cell.col⟩, ⟨cell.row + 1, cell.col⟩,
   ⟨cell.row, cell.col - 1⟩, ⟨cell.row, cell.col + 1⟩]

/-- `findConnectedSegment`: collect, over both cells of the current segment and
their four neighbors, the pool edges whose key is not already in the wall under
construction, not used by an accepted wall, and not a path edge; then pick
`candidates[Math.floor(rng() * candidates.length)]` (no random draw when there
is no candidate; an out-of-range pick behaves like the source's `undefined`,
i.e. no extension). -/
def findConnectedSegment (current : WallSegment) (existing : List WallSegment)
    (avail : List WallSegment) (used pathKeys : List EdgeKey) (g : Rng) :
    Option WallSegment × Rng :=
  let existingKeys := existing.map segKey
  let candidates := ([current.cell1, current.cell2]).flatMap fun cell =>
    (neighborsOf cell).filterMap fun nb =>
      let k := normalizeEdge cell nb
      match edgeMapGet avail k with
      | some seg =>
        if k ∉ existingKeys ∧ k ∉ used ∧ k ∉ pathKeys then some seg else none
      | none => none
  match candidates with
  | [] => (none, g)
  | _ =>
    let (v, g1) := rngNext g
    (candidates.get? (Int.floor (v * candidates.length)).toNat, g1)

/-- The extension loop of `buildMultiSegmentWall`: up to `targetLength - 1`
extensions, stopping at the first failed search. -/
def buildWallLoop (avail : List WallSegment) (used pathKeys : List EdgeKey) :
    Nat → WallSegment → List WallSegment → Rng → List WallSegment × Rng
  | 0, _, segs, g => (segs, g)
  | k + 1, current, segs, g =>
    match findConnectedSegment current segs avail used pathKeys g with
    | (some nxt, g1) => buildWallLoop avail used pathKeys k nxt (segs ++ [nxt]) g1
    | (none, g1) => (segs, g1)

/-- `buildMultiSegmentWall`: target 2 segments with probability 0.6, else 3;
return the wall only if at least 2 segments were reached. -/
def buildMultiSegmentWall (startEdge : WallSegment) (avail : List WallSegment)
    (used pathKeys : List EdgeKey) (g : Rng) : Option Wall × Rng :=
  let (v, g1) := rngNext g
  let targetLength := if v < (6 : Rat) / 10 then 2 else 3
  let (segs, g2) := buildWallLoop avail used pathKeys (targetLength - 1) startEdge [startEdge] g1
  (if 2 ≤ segs.length then some ⟨segs⟩ else none, g2)

/-- The main wall loop of `generateWalls` over the shuffled pool: stop at the
wall quota; skip used start edges; accept a built wall and mark its segment
keys used. -/
def wallsLoop (avail : List WallSegment) (pathKeys : List EdgeKey) (numWalls : Nat) :
    List WallSegment → List Wall → List EdgeKey → Rng → List Wall × Rng
  | [], walls, _, g => (walls, g)
  | startEdge :: rest, walls, used, g =>
    if numWalls ≤ walls.length then (walls, g)
    else if segKey startEdge ∈ used then wallsLoop avail pathKeys numWalls rest walls used g
    else
      match buildMultiSegmentWall startEdge avail used pathKeys g with
      | (some w, g1) =>
        wallsLoop avail pathKeys numWalls rest (walls ++ [w])
          (used ++ w.segments.map segKey) g1
      | (none, g1) => wallsLoop avail pathKeys numWalls rest walls used g1

/-- `generateWalls(cols, rows, path, difficulty)`: nothing below difficulty 7;
otherwise shuffle the non-path edge pool and grow multi-segment walls. -/
def generateWalls (cols rows : Nat) (path : List Pos) (difficulty : Nat) (g : Rng) :
    Option (List Wall × Rng) :=
  if difficulty < 7 then some ([], g)
  else
    let pathKeys := pathEdgeKeys path
    let numWalls := numWallsFor difficulty
    let avail := availableEdges cols rows pathKeys
    (shuffleEdges avail g).map fun sg =>
      wallsLoop avail pathKeys numWalls sg.1 [] [] sg.2

/-- `tryGenerateLevel`: one randomized attempt.  The outer `Option` layer is
the crash layer (an array access that yields `undefined` and is then
dereferenced); the inner `Option` is the source's `null` return that the
orchestrator absorbs by retrying. -/
def tryGenerateLevel (word : String) (cols rows difficulty : Nat) (g : Rng) :
    Option (Option LevelConfig × Rng) :=
  match chooseStartPosition cols rows difficulty g with
  | (none, _) => none
  | (some startPos, g1) =>
    match generateHamiltonianPath cols rows startPos g1 with
    | (none, g2) => some (none, g2)
    | (some path, g2) =>
      if path.length ≠ cols * rows then some (none, g2)
      else
        let (lps, g3) := calculateLetterPositions path word g2
        (createGrid cols rows path word lps).bind fun grid =>
        (createLetterOrderMap path word lps).bind fun lomap =>
        (generateWalls cols rows path difficulty g3).map fun wg =>
        (some { word := word, grid := grid, startPosition := startPos,
                difficulty := difficulty, gridCols := cols, gridRows := rows,
                letterOrderByPosition := lomap, walls := wg.1 }, wg.2)

/-- The boustrophedon ("snake") path of `generateFallbackLevel`: even rows left
to right, odd rows right to left. -/
def snakePath (cols rows : Nat) : List Pos :=
  (List.range rows).flatMap fun r =>
    if r % 2 = 0 then (List.range cols).map fun (c : Nat) => ⟨(r : Int), (c : Int)⟩
    else ((List.range cols).reverse).map fun (c : Nat) => ⟨(r : Int), (c : Int)⟩

/-- `generateFallbackLevel`: snake path from `(0,0)`, then the same letter
placement, grid write and wall generation as the randomized attempt (the
source inlines the grid-write loop of `createGrid` verbatim). -/
def generateFallbackLevel (word : String) (cols rows difficulty : Nat) (g : Rng) :
    Option (LevelConfig × Rng) :=
  let path := snakePath cols rows
  let (lps, g1) := calculateLetterPositions path word g
  (createGrid cols rows path word lps).bind fun grid =>
  (createLetterOrderMap path word lps).bind fun lomap =>
  (generateWalls cols rows path difficulty g1).map fun wg =>
  ({ word := word, grid := grid, startPosition := ⟨0, 0⟩,
     difficulty := difficulty, gridCols := cols, gridRows := rows,
     letterOrderByPosition := lomap, walls := wg.1 }, wg.2)

/-- The `while (attempts < maxAttempts)` retry loop of `generateLevel`:
return the first successful attempt, or the advanced stream after all
attempts failed (`some (none, g)`); propagate a crash (`none`). -/
def attemptLoop (word : String) (cols rows difficulty : Nat) :
    Nat → Rng → Option (Option LevelConfig × Rng)
  | 0, g => some (none, g)
  | k + 1, g =>
    match tryGenerateLevel word cols rows difficulty g with
    | none => none
    | some (some cfg, g1) => some (some cfg, g1)
    | some (none, g1) => attemptLoop word cols rows difficulty k g1

/-- `LevelGenerator.generateLevel(difficulty)`: select the word and base grid,
grow the grid to at least `4 * word.length` cells, try up to 100 randomized
attempts, and fall back to the snake level. -/
def generateLevel (g : Rng) (difficulty : Nat) : Option (LevelConfig × Rng) :=
  (wordFor difficulty).bind fun word =>
  (GRID_CONFIG_BY_DIFFICULTY.get? (min ((difficulty - 1) / 3) 3)).bind fun gridConfig =>
  let minCells := word.length * 4
  let cr := growGridLoop minCells minCells gridConfig.1 gridConfig.2
  match attemptLoop word cr.1 cr.2 difficulty 100 g with
  | none => none
  | some (some cfg, g1) => some (cfg, g1)
  | some (none, g1) => generateFallbackLevel word cr.1 cr.2 difficulty g1

/-- The module-level singleton wrapper `generateLevel(difficulty, seed)`:
`generatorInstance` is the `Option Rng` state (the instance is its random
stream); a fresh instance is built when there is none yet or a seed is passed,
otherwise the existing instance continues.  Returns the call result and the
new module state (`none` after a crash, whose intermediate stream the source
loses with the exception). -/
def moduleGenerateLevel (state : Option Rng) (seed : Option Nat) (ambient : Rng)
    (difficulty : Nat) : Option (LevelConfig × Rng) × Option Rng :=
  let g : Rng :=
    match state, seed with
    | some g0, none => g0
    | _, _ => mkGenerator seed ambient
  match generateLevel g difficulty with
  | some (cfg, g1) => (some (cfg, g1), some g1)
  | none => (none, none)

/-- The play-time state of `Level1Scene`, restricted to the game-logic fields:
the target word, the total cell count, the letter carried by each letter cell
(`cell.letter`, from the generated grid), the letter order of each letter cell
(`cell.letterOrder`, from `letterOrderByPosition`), the wall-blocked edge set,
the connected path (a cell is `isConnected` exactly when it is on the path,
which the scene keeps in sync), the `nextExpectedLetter` counter and the
`gameWon` flag. -/
structure GameState where
  word : String
  totalCells : Nat
  letters : List (Pos × Char)
  letterOrders : List (Pos × Nat)
  wallBlockedEdges : List EdgeKey
  path : List Pos
  nextExpectedLetter : Nat
  gameWon : Bool
deriving DecidableEq, Repr

/-- `cell.letter` of the cell at `p` (`none` for a plain dot cell). -/
def letterAt (s : GameState) (p : Pos) : Option Char :=
  (s.letters.find? fun e => decide (e.1 = p)).map Prod.snd

/-- `cell.letterOrder` of the cell at `p`. -/
def letterOrderAt (s : GameState) (p : Pos) : Option Nat :=
  (s.letterOrders.find? fun e => decide (e.1 = p)).map Prod.snd

/-- `isAdjacent(cell1, cell2)`: orthogonal adjacency, then the wall-blocked
edge test on the canonical edge. -/
def isAdjacentB (s : GameState) (a b : Pos) : Bool :=
  let rowDiff := (a.row - b.row).natAbs
  let colDiff := (a.col - b.col).natAbs
  if ¬((rowDiff = 1 ∧ colDiff = 0) ∨ (rowDiff = 0 ∧ colDiff = 1)) then false
  else if normalizeEdge a b ∈ s.wallBlockedEdges then false
  else true

/-- `checkWinCondition` as a predicate: the three early-return guards of the
source in order (full cover, last cell carries the word's last letter, all
letters consumed). -/
def checkWin (s : GameState) : Bool :=
  if s.path.length ≠ s.totalCells then false
  else
    match s.path.getLast? with
    | none => false
    | some lastCell =>
      if letterAt s lastCell ≠ s.word.toList.getLast? then false
      else if s.nextExpectedLetter ≠ s.word.length + 1 then false
      else true

/-- The tail of `activateCell` after all rejection guards: mark the cell
connected by appending it to the path, then run the win check (`showVictory`
sets `gameWon`). -/
def connectCell (s : GameState) (p : Pos) : GameState :=
  let s1 := { s with path := s.path ++ [p] }
  if checkWin s1 then { s1 with gameWon := true } else s1

/-- `activateCell(cell)`: reject when already connected or the level is won;
for a letter cell (a cell with both `letter` and a defined `letterOrder`)
reject a wrong-order letter, and reject the final letter while cells remain
unvisited; otherwise consume the letter (increment the counter) and connect. -/
def activateCell (s : GameState) (p : Pos) : GameState :=
  if p ∈ s.path ∨ s.gameWon then s
  else
    match letterAt s p, letterOrderAt s p with
    | some _, some k =>
      if k ≠ s.nextExpectedLetter then s
      else if k = s.word.length ∧ s.path.length + 1 < s.totalCells then s
      else connectCell { s with nextExpectedLetter := s.nextExpectedLetter + 1 } p
    | _, _ => connectCell s p

/-- The activation guard of the pointer handlers (`onPointerDown` /
`onPointerMove`): a new cell is activated only when it is adjacent to the
current cell (the last path cell) and not yet connected. -/
def attemptMove (s : GameState) (p : Pos) : GameState :=
  match s.path.getLast? with
  | none => s
  | some cur => if isAdjacentB s cur p ∧ p ∉ s.path then activateCell s p else s

/-- Orthogonal adjacency of two cells (one step up/down/left/right). -/
def orthAdj (a b : Pos) : Prop :=
  ((a.row - b.row).natAbs = 1 ∧ a.col = b.col) ∨
  (a.row = b.row ∧ (a.col - b.col).natAbs = 1)

/-- All cells of a `cols x rows` grid, row-major. -/
def gridCells (cols rows : Nat) : List Pos :=
  (List.range rows).flatMap fun r =>
    (List.range cols).map fun (c : Nat) => ⟨(r : Int), (c : Int)⟩

/-! ## Theorems -/

theorem rngNext_bounded {g : Rng} (h : RngBounded g) :
    (0 ≤ (rngNext g).1 ∧ (rngNext g).1 < 1) ∧ RngBounded (rngNext g).2 :=
  ⟨h 0, fun n => h (n + 1)⟩

/-- C8: two generator instances constructed with the same seed produce the
same output (the whole `LevelConfig`) for the same difficulty, whatever
ambient random sources the two instances would otherwise have used. -/
theorem c8_determinism (seed difficulty : Nat) (ambient1 ambient2 : Rng) :
    generateLevel (mkGenerator (some seed) ambient1) difficulty
      = generateLevel (mkGenerator (some seed) ambient2) difficulty := rfl

/-- C6: the win check succeeds exactly when the connected path covers all
cells, the last connected cell carries the word's final letter, and the
next-expected-letter counter has passed the whole word; in particular a path
that covers every cell but ends on a cell not carrying the final letter is
not a win. -/
theorem c6_win_condition_exact (s : GameState) :
    (checkWin s = true ↔
      s.path.length = s.totalCells ∧
      (∃ lastCell, s.path.getLast? = some lastCell ∧
        letterAt s lastCell = s.word.toList.getLast?) ∧
      s.nextExpectedLetter = s.word.length + 1) ∧
    (∀ lastCell, s.path.length = s.totalCells → s.path.getLast? = some lastCell →
      letterAt s lastCell ≠ s.word.toList.getLast? → checkWin s = false) := by
  have key : ∀ lastCell, s.path.getLast? = some lastCell →
      (checkWin s = true ↔ (s.path.length = s.totalCells ∧
        letterAt s lastCell = s.word.toList.getLast? ∧
        s.nextExpectedLetter = s.word.length + 1)) := by
    intro lastCell hl
    unfold checkWin
    rw [hl]
    by_cases h1 : s.path.length = s.totalCells <;>
      by_cases h2 : letterAt s lastCell = s.word.toList.getLast? <;>
        by_cases h3 : s.nextExpectedLetter = s.word.length + 1 <;>
          simp [h1, h2, h3, String.toList]
  cases hl : s.path.getLast? with
  | none =>
    constructor
    · constructor
      · intro h
        exfalso
        unfold checkWin at h
        rw [hl] at h
        by_cases h1 : s.path.length = s.totalCells <;> simp [h1] at h
      · rintro ⟨h1, ⟨lastCell, hlc, h2⟩, h3⟩
        exact absurd hlc (by simp)
    · intro lastCell h1 hlc h2
      exact absurd hlc (by simp)
  | some lastCell =>
    have hiff := key lastCell hl
    constructor
    · rw [hiff]
      constructor
      · rintro ⟨h1, h2, h3⟩
        exact ⟨h1, ⟨lastCell, rfl, h2⟩, h3⟩
      · rintro ⟨h1, ⟨lc, hlc, h2⟩, h3⟩
        injection hlc with he
        subst he
        exact ⟨h1, h2, h3⟩
    · intro lc h1 hlc h2
      injection hlc with he
      subst he
      cases hcw : checkWin s with
      | false => rfl
      | true => exact absurd (hiff.mp hcw).2.1 h2

/-- A concrete play-time state used by witnesses: a 1x2 grid for the word
`"AB"` whose path covers both cells but ends on the `'A'` cell. -/
def sampleWinState : GameState :=
  { word := "AB", totalCells := 2,
    letters := [(⟨0, 0⟩, 'A'), (⟨0, 1⟩, 'B')],
    letterOrders := [(⟨0, 0⟩, 1), (⟨0, 1⟩, 2)],
    wallBlockedEdges := [],
    path := [⟨0, 1⟩, ⟨0, 0⟩],
    nextExpectedLetter := 3, gameWon := false }

/-- C6 witness: a state covering every cell but ending on a non-final letter
is not a win. -/
theorem c6_win_condition_exact_witness : checkWin sampleWinState = false :=
  (c6_win_condition_exact sampleWinState).2 ⟨0, 0⟩ (by decide) (by decide) (by decide)

/-- C7: every rejected activation is a no-op on the whole game state (and so
on the connected set, the path and the next-expected-letter counter):
an already-connected cell, any activation after the level is won, a letter
cell whose order is not the next expected one, and — through the pointer
handlers' guard — a move to a cell that is not orthogonally adjacent to the
current cell or whose edge from the current cell is wall-blocked. -/
theorem c7_rejected_activation_noop (s : GameState) (p cur : Pos) :
    (p ∈ s.path → activateCell s p = s) ∧
    (s.gameWon = true → activateCell s p = s) ∧
    (∀ c k, letterAt s p = some c → letterOrderAt s p = some k →
      k ≠ s.nextExpectedLetter → activateCell s p = s) ∧
    (s.path.getLast? = some cur → isAdjacentB s cur p = false →
      attemptMove s p = s) ∧
    (s.path.getLast? = some cur → normalizeEdge cur p ∈ s.wallBlockedEdges →
      attemptMove s p = s) := by
  refine ⟨?_, ?_, ?_, ?_, ?_⟩
  · intro h
    unfold activateCell
    rw [if_pos (Or.inl h)]
  · intro h
    unfold activateCell
    rw [if_pos (Or.inr (by simp [h]))]
  · intro c k hc hk hne
    unfold activateCell
    by_cases hg : p ∈ s.path ∨ s.gameWon
    · rw [if_pos hg]
    · rw [if_neg hg, hc, hk]
      simp [hne]
  · intro hcur hadj
    unfold attemptMove
    rw [hcur]
    simp [hadj]
  · intro hcur hblocked
    unfold attemptMove
    rw [hcur]
    have hadj : isAdjacentB s cur p = false := by
      unfold isAdjacentB
      by_cases horth : ((cur.row - p.row).natAbs = 1 ∧ (cur.col - p.col).natAbs = 0) ∨
          ((cur.row - p.row).natAbs = 0 ∧ (cur.col - p.col).natAbs = 1)
      · simp only [horth, not_true_eq_false, if_false]
        rw [if_pos hblocked]
      · rw [if_pos horth]
    simp [hadj]

/-- A variant of the sample state with a wall between its two cells and only
the start cell connected. -/
def sampleBlockedState : GameState :=
  { sampleWinState with
    wallBlockedEdges := [(⟨0, 0⟩, ⟨0, 1⟩)],
    path := [⟨0, 0⟩],
    nextExpectedLetter := 1 }

/-- C7 witness: each rejection case, at a concrete state and cell. -/
theorem c7_rejected_activation_noop_witness :
    activateCell sampleWinState ⟨0, 0⟩ = sampleWinState ∧
    activateCell { sampleWinState with gameWon := true } ⟨0, 1⟩
      = { sampleWinState with gameWon := true } ∧
    activateCell sampleBlockedState ⟨0, 1⟩ = sampleBlockedState ∧
    attemptMove sampleWinState ⟨5, 5⟩ = sampleWinState ∧
    attemptMove sampleBlockedState ⟨0, 1⟩ = sampleBlockedState := by
  refine ⟨?_, ?_, ?_, ?_, ?_⟩
  · exact (c7_rejected_activation_noop sampleWinState ⟨0, 0⟩ ⟨0, 0⟩).1 (by decide)
  · exact (c7_rejected_activation_noop { sampleWinState with gameWon := true }
      ⟨0, 1⟩ ⟨0, 0⟩).2.1 rfl
  · exact (c7_rejected_activation_noop sampleBlockedState ⟨0, 1⟩ ⟨0, 0⟩).2.2.1
      'B' 2 (by decide) (by decide) (by decide)
  · exact (c7_rejected_activation_noop sampleWinState ⟨5, 5⟩ ⟨0, 0⟩).2.2.2.1
      (by decide) (by decide)
  · exact (c7_rejected_activation_noop sampleBlockedState ⟨0, 1⟩ ⟨0, 0⟩).2.2.2.2
      (by decide) (by decide)

/-- C10: the module-level `generateLevel(difficulty, seed)` keeps a singleton
generator.  A seeded call (whatever instance exists and whatever the ambient
random source is) runs a fresh seeded generator; the very first call without
a seed runs a fresh generator on the ambient source; a later unseeded call
reuses the stored instance, ignoring the ambient source; and the stored
instance after a call is exactly the stream the call left behind, so unseeded
calls after a seeded call continue that seed's stream deterministically. -/
theorem c10_singleton_generator (state : Option Rng) (g0 ambient ambient2 : Rng)
    (seed difficulty : Nat) :
    moduleGenerateLevel state (some seed) ambient difficulty
      = moduleGenerateLevel none (some seed) ambient2 difficulty ∧
    (moduleGenerateLevel state (some seed) ambient difficulty).1
      = generateLevel (lcgStream seed) difficulty ∧
    (moduleGenerateLevel none none ambient difficulty).1
      = generateLevel ambient difficulty ∧
    (moduleGenerateLevel (some g0) none ambient difficulty).1
      = generateLevel g0 difficulty ∧
    moduleGenerateLevel (some g0) none ambient difficulty
      = moduleGenerateLevel (some g0) none ambient2 difficulty ∧
    (moduleGenerateLevel state (some seed) ambient difficulty).2
      = (generateLevel (lcgStream seed) difficulty).map Prod.snd := by
  have hres : ∀ g : Rng,
      ((match generateLevel g difficulty with
        | some (cfg, g1) => (some (cfg, g1), some g1)
        | none => (none, none)) : Option (LevelConfig × Rng) × Option Rng).1
        = generateLevel g difficulty := by
    intro g
    cases h : generateLevel g difficulty with
    | none => simp [h]
    | some r => cases r; simp [h]
  have hsnd : ∀ g : Rng,
      ((match generateLevel g difficulty with
        | some (cfg, g1) => (some (cfg, g1), some g1)
        | none => (none, none)) : Option (LevelConfig × Rng) × Option Rng).2
        = (generateLevel g difficulty).map Prod.snd := by
    intro g
    cases h : generateLevel g difficulty with
    | none => simp [h]
    | some r => cases r; simp [h]
  have hseeded : ∀ st : Option Rng, ∀ amb : Rng,
      moduleGenerateLevel st (some seed) amb difficulty
        = moduleGenerateLevel none (some seed) ambient2 difficulty := by
    intro st amb
    cases st <;> rfl
  refine ⟨hseeded state ambient, ?_, ?_, ?_, rfl, ?_⟩
  · rw [hseeded state ambient]
    exact hres (lcgStream seed)
  · exact hres ambient
  · exact hres g0
  · rw [hseeded state ambient]
    exact hsnd (lcgStream seed)

theorem floor_two_mem {v : Rat} (h0 : 0 ≤ v) (h1 : v < 1) :
    Int.floor (v * 2) = 0 ∨ Int.floor (v * 2) = 1 := by
  have hge : (0 : Int) ≤ Int.floor (v * 2) := Int.floor_nonneg.mpr (by positivity)
  have hlt : Int.floor (v * 2) < 2 := by
    apply Int.floor_lt.mpr
    push_cast
    linarith
  omega

theorem cpStep_zero (T n : Nat) (acc : List Int) (g : Rng) :
    cpStep T n (acc, g) 0 =
      (acc ++ [min (1 + Int.floor (g 0 * 2)) ((T : Int) - (n : Int))],
       fun k => g (k + 1)) := by
  simp [cpStep, rngNext]

theorem cpStep_last (T n : Nat) (acc : List Int) (g : Rng) (h0 : n - 1 ≠ 0) :
    cpStep T n (acc, g) (n - 1) =
      (acc ++ [if (T : Int) - 1 ≤ acc.getLastD 0 then acc.getLastD 0 + 2
               else (T : Int) - 1], g) := by
  simp only [cpStep, h0, if_neg, if_pos, if_true, rngNext]
  have hpos : 0 < n - 1 := Nat.pos_of_ne_zero h0
  by_cases hc : (T : Int) - 1 ≤ acc.getLastD 0
  · simp [h0, hc, hpos]
  · simp [h0, hc, hpos]

theorem cpStep_mid_ex (T n : Nat) (acc : List Int) (g : Rng) (i : Nat)
    (h0 : i ≠ 0) (h1 : i ≠ n - 1) :
    ∃ pos : Int, cpStep T n (acc, g) i = (acc ++ [pos], fun k => g (k + 1)) ∧
      acc.getLastD 0 < pos ∧
      (pos ≤ (T : Int) - (n : Int) + (i : Int) ∨
        (pos = acc.getLastD 0 + 2 ∧ (T : Int) - (n : Int) + (i : Int) ≤ acc.getLastD 0)) := by
  have hpos : 0 < i := Nat.pos_of_ne_zero h0
  set prev := acc.getLastD 0 with hprev
  set basePos := Int.floor ((1 : Rat) + (i : Rat) * cpSpacing T n) with hbase
  set variation := Int.floor (g 0 * 3) - 1 with hvar
  set clamp := (T : Int) - ((n : Int) - (i : Int)) with hclamp
  have hclamp2 : clamp = (T : Int) - (n : Int) + (i : Int) := by rw [hclamp]; ring
  set p1 := max (prev + 2) (basePos + variation) with hp1
  have hstep : cpStep T n (acc, g) i =
      (acc ++ [if min p1 clamp ≤ prev then prev + 2 else min p1 clamp],
       fun k => g (k + 1)) := by
    simp only [cpStep, h0, h1, if_neg, if_false, rngNext, hpos, true_and]
  by_cases hc : min p1 clamp ≤ prev
  · refine ⟨prev + 2, ?_, by omega, Or.inr ⟨rfl, ?_⟩⟩
    · rw [hstep, if_pos hc]
    · rcases min_le_iff.mp hc with h | h
      · omega
      · omega
  · refine ⟨min p1 clamp, ?_, by omega, Or.inl ?_⟩
    · rw [hstep, if_neg hc]
    · calc min p1 clamp ≤ clamp := min_le_right _ _
      _ = (T : Int) - (n : Int) + (i : Int) := hclamp2

theorem cpBuild_partial (T n : Nat) (hn : 2 ≤ n) (hT : 4 * n ≤ T) :
    ∀ i, i ≤ n - 1 → ∀ g : Rng, RngBounded g →
    ∃ acc g2, (List.range i).foldl (cpStep T n) ([], g) = (acc, g2) ∧
      RngBounded g2 ∧ acc.length = i ∧ List.Chain' (· < ·) acc ∧
      (1 ≤ i → (acc.head? = some 1 ∨ acc.head? = some 2) ∧
        acc.getLastD 0 ≤ max (2 + 2 * ((i : Int) - 1)) ((T : Int) - (n : Int) + ((i : Int) - 1))) := by
  intro i
  induction i with
  | zero =>
    intro _ g hg
    exact ⟨[], g, rfl, hg, rfl, List.chain'_nil, fun h => absurd h (by omega)⟩
  | succ i ih =>
    intro hle g hg
    obtain ⟨acc, g2, hfold, hg2, hlen, hchain, hrest⟩ := ih (by omega) g hg
    rw [List.range_succ, List.foldl_append, hfold]
    simp only [List.foldl_cons, List.foldl_nil]
    rcases Nat.eq_zero_or_pos i with hi0 | hipos
    · subst hi0
      have hacc : acc = [] := List.length_eq_zero.mp hlen
      subst hacc
      rw [cpStep_zero]
      have hv := hg2 0
      have hTn : (2 : Int) ≤ (T : Int) - (n : Int) := by
        have : 4 * n ≤ T := hT
        omega
      rcases floor_two_mem hv.1 hv.2 with hf | hf
      all_goals
        refine ⟨_, _, rfl, fun k => hg2 (k + 1), rfl, by simp, fun _ => ⟨?_, ?_⟩⟩
      · left
        simp only [List.nil_append, List.head?_cons]
        congr 1
        rw [hf]
        omega
      · simp only [List.nil_append, List.getLastD_eq_getLast?, List.getLast?_singleton,
          Option.getD_some]
        have hmin : min (1 + Int.floor ((g2 : Rng) 0 * 2)) ((T : Int) - (n : Int)) = 1 := by
          rw [hf]; omega
        rw [hmin]
        refine le_max_iff.mpr (Or.inl (by norm_num))
      · right
        simp only [List.nil_append, List.head?_cons]
        congr 1
        rw [hf]
        omega
      · simp only [List.nil_append, List.getLastD_eq_getLast?, List.getLast?_singleton,
          Option.getD_some]
        have hmin : min (1 + Int.floor ((g2 : Rng) 0 * 2)) ((T : Int) - (n : Int)) = 2 := by
          rw [hf]; omega
        rw [hmin]
        refine le_max_iff.mpr (Or.inl (by norm_num))
    · have hine : i ≠ 0 := by omega
      have hine2 : i ≠ n - 1 := by omega
      obtain ⟨pos, hstep, hgt, hbound⟩ := cpStep_mid_ex T n acc g2 i hine hine2
      rw [hstep]
      obtain ⟨hhead, hlast⟩ := hrest hipos
      have haccne : acc ≠ [] := by
        intro h
        rw [h] at hlen
        simp at hlen
        omega
      refine ⟨_, _, rfl, fun k => hg2 (k + 1), by simp [hlen], ?_, fun _ => ⟨?_, ?_⟩⟩
      · rw [List.chain'_append]
        refine ⟨hchain, List.chain'_singleton _, ?_⟩
        intro x hx y hy
        simp only [List.head?_cons, Option.mem_def, Option.some.injEq] at hy
        subst hy
        rw [List.getLast?_eq_getLast _ haccne, Option.mem_def, Option.some.injEq] at hx
        have hld : acc.getLastD 0 = acc.getLast haccne := by
          rw [List.getLastD_eq_getLast?, List.getLast?_eq_getLast _ haccne]
          rfl
        rw [← hx]
        rw [hld] at hgt
        exact hgt
      · rw [List.head?_append]
        rcases hhead with h | h
        · left; rw [h]; rfl
        · right; rw [h]; rfl
      · rw [List.getLastD_eq_getLast?, List.getLast?_concat]
        simp only [Option.getD_some]
        rcases hbound with hb | ⟨hb, hb2⟩
        · have : (2 : Int) + 2 * ((i : Int) + 1 - 1) ≤ 2 + 2 * ((i : Int) + 1 - 1) := le_refl _
          push_cast
          rw [le_max_iff]
          right
          omega
        · rcases le_max_iff.mp hlast with h | h
          · push_cast
            rw [le_max_iff]
            left
            omega
          · exfalso
            omega

theorem cpBuild_spec (T n : Nat) (hn : 2 ≤ n) (hT : 4 * n ≤ T) (g : Rng)
    (hg : RngBounded g) :
    ∃ ps g2, cpBuild T n g = (ps, g2) ∧ RngBounded g2 ∧ ps.length = n ∧
      List.Chain' (· < ·) ps ∧ (ps.head? = some 1 ∨ ps.head? = some 2) ∧
      ps.getLast? = some ((T : Int) - 1) := by
  obtain ⟨acc, g2, hfold, hg2, hlen, hchain, hrest⟩ :=
    cpBuild_partial T n hn hT (n - 1) (le_refl _) g hg
  obtain ⟨hhead, hlast⟩ := hrest (by omega)
  have hne : n - 1 ≠ 0 := by omega
  have haccne : acc ≠ [] := by
    intro h
    rw [h] at hlen
    simp at hlen
    omega
  have hprevlt : acc.getLastD 0 < (T : Int) - 1 := by
    rcases le_max_iff.mp hlast with h | h
    · omega
    · omega
  have hsplit : List.range n = List.range (n - 1) ++ [n - 1] := by
    conv_lhs => rw [show n = (n - 1) + 1 by omega]
    exact List.range_succ (n - 1)
  unfold cpBuild
  rw [hsplit, List.foldl_append, hfold]
  simp only [List.foldl_cons, List.foldl_nil]
  rw [cpStep_last T n acc g2 hne, if_neg (by omega)]
  refine ⟨_, _, rfl, hg2, ?_, ?_, ?_, List.getLast?_concat _⟩
  · simp [hlen]
    omega
  · rw [List.chain'_append]
    refine ⟨hchain, List.chain'_singleton _, ?_⟩
    intro x hx y hy
    simp only [List.head?_cons, Option.mem_def, Option.some.injEq] at hy
    subst hy
    rw [List.getLast?_eq_getLast _ haccne, Option.mem_def, Option.some.injEq] at hx
    have hld : acc.getLastD 0 = acc.getLast haccne := by
      rw [List.getLastD_eq_getLast?, List.getLast?_eq_getLast _ haccne]
      rfl
    rw [← hx]
    rw [hld] at hprevlt
    exact hprevlt
  · rw [List.head?_append]
    rcases hhead with h | h
    · left; rw [h]; rfl
    · right; rw [h]; rfl

theorem chain_lt_mem_le_getLast {l : List Int} {L : Int}
    (hchain : List.Chain' (· < ·) l) (hlast : l.getLast? = some L) :
    ∀ x ∈ l, x ≤ L := by
  intro x hx
  have hne : l ≠ [] := by
    intro h
    rw [h] at hlast
    simp at hlast
  have hdecomp := List.dropLast_append_getLast hne
  have hL : l.getLast hne = L := by
    rw [List.getLast?_eq_getLast _ hne, Option.some.injEq] at hlast
    exact hlast
  rw [List.chain'_iff_pairwise] at hchain
  rw [← hdecomp] at hchain hx
  rcases List.mem_append.mp hx with h | h
  · rcases List.pairwise_append.mp hchain with ⟨_, _, hcross⟩
    have := hcross x h (l.getLast hne) (by simp)
    omega
  · simp only [List.mem_singleton] at h
    subst h
    omega

theorem chain_lt_head_le_mem {l : List Int} {h0 : Int}
    (hchain : List.Chain' (· < ·) l) (hhead : l.head? = some h0) :
    ∀ x ∈ l, h0 ≤ x := by
  intro x hx
  cases l with
  | nil => simp at hx
  | cons a t =>
    simp only [List.head?_cons, Option.some.injEq] at hhead
    subst hhead
    rw [List.chain'_iff_pairwise] at hchain
    rcases List.mem_cons.mp hx with h | h
    · omega
    · have := (List.pairwise_cons.mp hchain).1 x h
      omega

theorem cpRepair_noop (T : Int) (len : Nat) :
    ∀ (ps acc : List Int) (i : Nat), i = acc.length →
      List.Chain' (· < ·) (acc ++ ps) → (∀ x ∈ ps, x < T) →
      cpRepairLoop T len i acc ps = acc ++ ps := by
  intro ps
  induction ps with
  | nil =>
    intro acc i _ _ _
    simp [cpRepairLoop]
  | cons p rest ih =>
    intro acc i hi hchain hbound
    have hp1 : ¬(T ≤ p) := by
      have := hbound p (by simp)
      omega
    have hp2 : ¬(0 < i ∧ p ≤ acc.getLastD 0) := by
      rintro ⟨hipos, hle⟩
      have haccne : acc ≠ [] := by
        intro h
        rw [h] at hi
        simp at hi
        omega
      have hcross := (List.chain'_append.mp hchain).2.2
      have := hcross (acc.getLast haccne)
        (by rw [List.getLast?_eq_getLast _ haccne]; rfl) p (by simp)
      have hld : acc.getLastD 0 = acc.getLast haccne := by
        rw [List.getLastD_eq_getLast?, List.getLast?_eq_getLast _ haccne]
        rfl
      omega
    simp only [cpRepairLoop, if_neg hp1, if_neg hp2]
    have hres := ih (acc ++ [p]) (i + 1) (by simp [hi])
      (by rw [List.append_assoc]; simpa using hchain)
      (fun x hx => hbound x (by simp [hx]))
    rw [hres, List.append_assoc]
    rfl

theorem calculateLetterPositions_spec (path : List Pos) (word : String) (g : Rng)
    (hn : 2 ≤ word.length) (hT : 4 * word.length ≤ path.length) (hg : RngBounded g) :
    ∃ ps g2, calculateLetterPositions path word g = (ps, g2) ∧ RngBounded g2 ∧
      ps.length = word.length ∧ List.Chain' (· < ·) ps ∧
      (ps.head? = some 1 ∨ ps.head? = some 2) ∧
      ps.getLast? = some ((path.length : Int) - 1) ∧
      (∀ x ∈ ps, 1 ≤ x ∧ x ≤ (path.length : Int) - 1) := by
  obtain ⟨ps, g2, hbuild, hg2, hlen, hchain, hhead, hlast⟩ :=
    cpBuild_spec path.length word.length hn hT g hg
  have hmem : ∀ x ∈ ps, 1 ≤ x ∧ x ≤ (path.length : Int) - 1 := by
    intro x hx
    constructor
    · rcases hhead with h | h
      · have := chain_lt_head_le_mem hchain h x hx
        omega
      · have := chain_lt_head_le_mem hchain h x hx
        omega
    · exact chain_lt_mem_le_getLast hchain hlast x hx
  refine ⟨ps, g2, ?_, hg2, hlen, hchain, hhead, hlast, hmem⟩
  simp only [calculateLetterPositions, hbuild]
  rw [cpRepair_noop (path.length : Int) word.length ps [] 0 rfl (by simpa using hchain)
    (fun x hx => by have := (hmem x hx).2; omega)]
  rw [List.nil_append]

theorem createLetterOrderMap_eq (path : List Pos) (word : String) (ps : List Int)
    (hlen : ps.length = word.length)
    (hvalid : ∀ x ∈ ps, 0 ≤ x ∧ x.toNat < path.length) :
    createLetterOrderMap path word ps
      = some ((ps.map fun idx => path.getD idx.toNat ⟨0, 0⟩).zip
          (List.range' 1 word.length)) := by
  have key : ∀ k, k ≤ word.length →
      (List.range k).foldlM
        (fun (acc : List (Pos × Nat)) i =>
          (ps.get? i).bind fun idx =>
          (posAt path idx).map fun pos => acc ++ [(pos, i + 1)]) []
      = some (((ps.take k).map fun idx => path.getD idx.toNat ⟨0, 0⟩).zip
          (List.range' 1 k)) := by
    intro k
    induction k with
    | zero => intro _; rfl
    | succ k ihk =>
      intro hk
      rw [List.range_succ, List.foldlM_append, ihk (by omega)]
      have hklt : k < ps.length := by omega
      obtain ⟨idx, hidx⟩ : ∃ idx, ps.get? k = some idx :=
        ⟨ps.get ⟨k, hklt⟩, List.get?_eq_get hklt⟩
      have hmem : idx ∈ ps := List.get?_mem hidx
      obtain ⟨hnn, hlt⟩ := hvalid idx hmem
      have hgetq : path.get? idx.toNat = some (path.getD idx.toNat ⟨0, 0⟩) := by
        rw [List.getD_eq_get?]
        obtain ⟨q, hq⟩ : ∃ q, path.get? idx.toNat = some q :=
          ⟨path.get ⟨idx.toNat, hlt⟩, List.get?_eq_get hlt⟩
        rw [hq]
        rfl
      have hpos : posAt path idx = some (path.getD idx.toNat ⟨0, 0⟩) := by
        unfold posAt
        rw [if_pos hnn]
        exact hgetq
      simp only [List.foldlM_cons, List.foldlM_nil, hidx, Option.some_bind, hpos,
        Option.map_some', Option.bind_eq_bind, Option.some_bind, Option.bind_some]
      congr 1
      have htake : ps.take (k + 1) = ps.take k ++ [idx] := by
        rw [List.take_succ]
        congr 1
        rw [← List.get?_eq_getElem?, hidx]
        rfl
      rw [htake, List.map_append, List.range'_concat,
        List.zip_append (by simp [List.length_take, List.length_range']; omega)]
      simp [Nat.add_comm]
  have := key word.length (le_refl _)
  unfold createLetterOrderMap
  rw [this, List.take_of_length_le (by omega)]

theorem getD_valid_eq_get (path : List Pos) (k : Nat) (h : k < path.length) :
    path.getD k ⟨0, 0⟩ = path.get ⟨k, h⟩ := by
  rw [List.getD_eq_get?, List.get?_eq_get h]
  rfl

/-- C3: for a word of length at least 2 and a path of length at least
`4 * word.length`, `calculateLetterPositions` returns exactly `word.length`
path indices, strictly increasing, all inside `[0, path.length - 1]`; hence
(for a duplicate-free path) `createLetterOrderMap` assigns the orders
`1..word.length` to exactly `word.length` distinct on-path cells, in
path order. -/
theorem c3_letter_positions_monotone (path : List Pos) (word : String) (g : Rng)
    (hn : 2 ≤ word.length) (hT : 4 * word.length ≤ path.length) (hg : RngBounded g) :
    (calculateLetterPositions path word g).1.length = word.length ∧
    List.Chain' (· < ·) (calculateLetterPositions path word g).1 ∧
    (∀ x ∈ (calculateLetterPositions path word g).1,
      0 ≤ x ∧ x < (path.length : Int)) ∧
    (path.Nodup → ∃ cells : List Pos,
      createLetterOrderMap path word (calculateLetterPositions path word g).1
        = some (cells.zip (List.range' 1 word.length)) ∧
      cells.length = word.length ∧ cells.Nodup ∧ ∀ q ∈ cells, q ∈ path) := by
  obtain ⟨ps, g2, heq, hg2, hlen, hchain, hhead, hlast, hmem⟩ :=
    calculateLetterPositions_spec path word g hn hT hg
  rw [heq]
  simp only
  have hvalid : ∀ x ∈ ps, 0 ≤ x ∧ x.toNat < path.length := by
    intro x hx
    obtain ⟨h1, h2⟩ := hmem x hx
    omega
  refine ⟨hlen, hchain, ?_, ?_⟩
  · intro x hx
    obtain ⟨h1, h2⟩ := hmem x hx
    omega
  · intro hnodup
    refine ⟨ps.map fun idx => path.getD idx.toNat ⟨0, 0⟩,
      createLetterOrderMap_eq path word ps hlen hvalid, by simp [hlen], ?_, ?_⟩
    · rw [List.Nodup, List.pairwise_map]
      have hpw : List.Pairwise (· < ·) ps := List.chain'_iff_pairwise.mp hchain
      refine hpw.imp_of_mem ?_
      intro a b ha hb hab
      obtain ⟨ha0, haN⟩ := hvalid a ha
      obtain ⟨hb0, hbN⟩ := hvalid b hb
      rw [getD_valid_eq_get path a.toNat haN, getD_valid_eq_get path b.toNat hbN]
      intro hcontra
      have := (hnodup.get_inj_iff.mp hcontra)
      have : a.toNat = b.toNat := by
        simpa using congrArg Fin.val this
      omega
    · intro q hq
      obtain ⟨idx, hidx, hfq⟩ := List.mem_map.mp hq
      obtain ⟨h0, hN⟩ := hvalid idx hidx
      rw [getD_valid_eq_get path idx.toNat hN] at hfq
      rw [← hfq]
      exact List.get_mem _ _ _

/-- The all-zero random stream, used by witnesses. -/
def zeroRng : Rng := fun _ => 0

theorem zeroRng_bounded : RngBounded zeroRng := by
  intro n
  constructor <;> norm_num [zeroRng]

/-- A concrete 8-cell path used by witnesses. -/
def witnessPath : List Pos :=
  [⟨0, 0⟩, ⟨0, 1⟩, ⟨0, 2⟩, ⟨0, 3⟩, ⟨0, 4⟩, ⟨0, 5⟩, ⟨0, 6⟩, ⟨0, 7⟩]

/-- C3 witness: the letter-position guarantee at a concrete path, word and
random stream. -/
theorem c3_letter_positions_monotone_witness :
    (calculateLetterPositions witnessPath "AB" zeroRng).1.length = "AB".length ∧
    List.Chain' (· < ·) (calculateLetterPositions witnessPath "AB" zeroRng).1 :=
  ⟨(c3_letter_positions_monotone witnessPath "AB" zeroRng (by decide) (by decide)
      zeroRng_bounded).1,
   (c3_letter_positions_monotone witnessPath "AB" zeroRng (by decide) (by decide)
      zeroRng_bounded).2.1⟩

/-- C4: the first letter position is path index 1 or 2 (never 0), the last
letter is pinned to the final path index, and the order map's final entry
assigns order `word.length` to the path's terminal cell. -/
theorem c4_terminal_letter_pinning (path : List Pos) (word : String) (g : Rng)
    (hn : 2 ≤ word.length) (hT : 4 * word.length ≤ path.length) (hg : RngBounded g) :
    ((calculateLetterPositions path word g).1.head? = some 1 ∨
      (calculateLetterPositions path word g).1.head? = some 2) ∧
    (calculateLetterPositions path word g).1.getLast?
      = some ((path.length : Int) - 1) ∧
    (∀ lastCell, path.getLast? = some lastCell →
      ∃ m, createLetterOrderMap path word (calculateLetterPositions path word g).1
          = some m ∧
        m.getLast? = some (lastCell, word.length)) := by
  obtain ⟨ps, g2, heq, hg2, hlen, hchain, hhead, hlast, hmem⟩ :=
    calculateLetterPositions_spec path word g hn hT hg
  rw [heq]
  simp only
  refine ⟨hhead, hlast, ?_⟩
  intro lastCell hlc
  have hvalid : ∀ x ∈ ps, 0 ≤ x ∧ x.toNat < path.length := by
    intro x hx
    obtain ⟨h1, h2⟩ := hmem x hx
    omega
  refine ⟨_, createLetterOrderMap_eq path word ps hlen hvalid, ?_⟩
  have hpsne : ps ≠ [] := by
    intro h
    rw [h] at hlen
    simp at hlen
    omega
  have hpathne : path ≠ [] := by
    intro h
    rw [h] at hlc
    simp at hlc
  have hgetLast : ps.getLast hpsne = (path.length : Int) - 1 := by
    rw [List.getLast?_eq_getLast _ hpsne, Option.some.injEq] at hlast
    exact hlast
  have hdecomp := List.dropLast_append_getLast hpsne
  have hdlen : ps.dropLast.length = word.length - 1 := by
    rw [List.length_dropLast, hlen]
  have hrange : List.range' 1 word.length
      = List.range' 1 (word.length - 1) ++ [1 + 1 * (word.length - 1)] := by
    conv_lhs => rw [show word.length = (word.length - 1) + 1 by omega]
    rw [List.range'_concat]
  have htn : ((path.length : Int) - 1).toNat = path.length - 1 := by omega
  have hplen : path.length - 1 < path.length := by
    have : path.length ≠ 0 := fun h => hpathne (List.length_eq_zero.mp h)
    omega
  have hfval : path.getD ((ps.getLast hpsne).toNat) ⟨0, 0⟩ = lastCell := by
    rw [hgetLast, htn, getD_valid_eq_get path (path.length - 1) hplen]
    rw [List.getLast?_eq_getLast _ hpathne, Option.some.injEq] at hlc
    rw [← hlc, List.getLast_eq_get]
  rw [← hdecomp, List.map_append, hrange,
    List.zip_append (by rw [List.length_map, hdlen, List.length_range'])]
  simp only [List.map_cons, List.map_nil, List.zip_cons_cons, List.zip_nil_right]
  rw [List.getLast?_concat, hfval]
  have : 1 + 1 * (word.length - 1) = word.length := by omega
  rw [this]

/-- C4 witness: the pinning guarantee at a concrete path, word and stream. -/
theorem c4_terminal_letter_pinning_witness :
    ((calculateLetterPositions witnessPath "AB" zeroRng).1.head? = some 1 ∨
      (calculateLetterPositions witnessPath "AB" zeroRng).1.head? = some 2) ∧
    (calculateLetterPositions witnessPath "AB" zeroRng).1.getLast?
      = some ((witnessPath.length : Int) - 1) :=
  ⟨(c4_terminal_letter_pinning witnessPath "AB" zeroRng (by decide) (by decide)
      zeroRng_bounded).1,
   (c4_terminal_letter_pinning witnessPath "AB" zeroRng (by decide) (by decide)
      zeroRng_bounded).2.1⟩

theorem mem_gridCells (cols rows : Nat) (p : Pos) :
    p ∈ gridCells cols rows ↔ inBoundsB cols rows p = true := by
  simp only [gridCells, List.mem_flatMap, List.mem_map, List.mem_range, inBoundsB,
    decide_eq_true_eq]
  constructor
  · rintro ⟨r, hr, c, hc, rfl⟩
    dsimp only
    refine ⟨by positivity, by exact_mod_cast hr, by positivity, by exact_mod_cast hc⟩
  · rintro ⟨h1, h2, h3, h4⟩
    refine ⟨p.row.toNat, by omega, p.col.toNat, by omega, ?_⟩
    cases p with
    | mk a b =>
      dsimp only at h1 h2 h3 h4 ⊢
      congr 1 <;> omega

theorem gridCells_length (cols rows : Nat) :
    (gridCells cols rows).length = rows * cols := by
  rw [gridCells, List.length_flatMap]
  have hmapeq : List.map (List.length ∘ fun (r : Nat) =>
      (List.range cols).map fun (c : Nat) => (⟨(r : Int), (c : Int)⟩ : Pos))
      (List.range rows) = List.map (fun _ => cols) (List.range rows) :=
    List.map_congr_left (fun r _ => by simp)
  rw [hmapeq]
  simp [List.map_const', Nat.mul_comm]

theorem gridCells_nodup (cols rows : Nat) : (gridCells cols rows).Nodup := by
  rw [gridCells, List.nodup_flatMap]
  constructor
  · intro r _
    refine List.Nodup.map ?_ (List.nodup_range cols)
    intro a b hab
    simpa using congrArg Pos.col hab
  · refine (List.nodup_range rows).imp ?_
    intro a b hne x hxa hxb
    obtain ⟨ca, _, hca⟩ := List.mem_map.mp hxa
    obtain ⟨cb, _, hcb⟩ := List.mem_map.mp hxb
    have h1 := congrArg Pos.row hca
    have h2 := congrArg Pos.row hcb
    dsimp at h1 h2
    omega

theorem directions_orthAdj (p : Pos) (d : Int × Int) (hd : d ∈ directions) :
    orthAdj p ⟨p.row + d.1, p.col + d.2⟩ := by
  simp only [directions, List.mem_cons, List.not_mem_nil, or_false] at hd
  rcases hd with rfl | rfl | rfl | rfl <;> simp [orthAdj]

theorem getNextMoves_mem (cols rows : Nat) (visited : List Pos) (p : Pos) (g : Rng) :
    ∀ q ∈ (getNextMoves cols rows visited p g).1,
      inBoundsB cols rows q = true ∧ q ∉ visited ∧ orthAdj p q := by
  have key : ∀ (ds : List (Int × Int)) (st : List (Pos × Rat) × Rng) (e : Pos × Rat),
      e ∈ (ds.foldl (fun (acc : List (Pos × Rat) × Rng) (d : Int × Int) =>
        let q : Pos := ⟨p.row + d.1, p.col + d.2⟩
        if inBoundsB cols rows q && !(decide (q ∈ visited)) then
          let v := rngNext acc.2
          (acc.1 ++ [(q, (countUnvisitedNeighbors cols rows visited q : Rat) + v.1 * (1 / 2))], v.2)
        else acc) st).1 →
      e ∈ st.1 ∨ ∃ d ∈ ds, e.1 = ⟨p.row + d.1, p.col + d.2⟩ ∧
        inBoundsB cols rows e.1 = true ∧ e.1 ∉ visited := by
    intro ds
    induction ds with
    | nil => intro st e he; exact Or.inl he
    | cons d ds ihd =>
      intro st e he
      rw [List.foldl_cons] at he
      rcases ihd _ e he with hin | ⟨d2, hd2, hrest⟩
      · by_cases hc : inBoundsB cols rows (⟨p.row + d.1, p.col + d.2⟩ : Pos)
            && !(decide ((⟨p.row + d.1, p.col + d.2⟩ : Pos) ∈ visited))
        · simp only [hc, if_true] at hin
          rcases List.mem_append.mp hin with h | h
          · exact Or.inl h
          · simp only [List.mem_singleton] at h
            subst h
            simp only [Bool.and_eq_true, Bool.not_eq_true', decide_eq_false_iff_not] at hc
            exact Or.inr ⟨d, List.mem_cons_self _ _, rfl, hc.1, hc.2⟩
        · simp only [hc, if_false] at hin
          exact Or.inl hin
      · exact Or.inr ⟨d2, List.mem_cons_of_mem _ hd2, hrest⟩
  intro q hq
  unfold getNextMoves at hq
  simp only at hq
  obtain ⟨e, he, rfl⟩ := List.mem_map.mp hq
  rw [List.mem_mergeSort] at he
  rcases key directions ([], g) e he with h | ⟨d, hd, he1, hb, hv⟩
  · simp at h
  · exact ⟨hb, hv, he1 ▸ directions_orthAdj p d hd⟩

theorem genPathLoop_spec (cols rows : Nat) :
    ∀ (fuel : Nat) (path : List Pos) (cur : Pos) (g : Rng) (out : List Pos) (g2 : Rng),
      genPathLoop cols rows fuel path cur g = (some out, g2) →
      path ≠ [] → path.length ≤ cols * rows → path.Nodup →
      (∀ q ∈ path, inBoundsB cols rows q = true) →
      List.Chain' orthAdj path → path.getLast? = some cur →
      out.length = cols * rows ∧ out.Nodup ∧
      (∀ q ∈ out, inBoundsB cols rows q = true) ∧ List.Chain' orthAdj out := by
  intro fuel
  induction fuel with
  | zero =>
    intro path cur g out g2 heq hne hlen hnd hbd hch hcur
    rw [genPathLoop] at heq
    by_cases hlt : path.length < cols * rows
    · rw [if_pos hlt] at heq
      exact absurd (congrArg Prod.fst heq) (by simp)
    · rw [if_neg hlt] at heq
      obtain ⟨h1, h2⟩ := Prod.mk.injEq .. ▸ heq
      injection congrArg Prod.fst heq with h
      obtain rfl : path = out := Option.some.injEq .. ▸ h
      exact ⟨by omega, hnd, hbd, hch⟩
  | succ fuel ih =>
    intro path cur g out g2 heq hne hlen hnd hbd hch hcur
    rw [genPathLoop] at heq
    by_cases hlt : path.length < cols * rows
    · rw [if_pos hlt] at heq
      obtain ⟨moves, g1, hmv⟩ : ∃ moves g1, getNextMoves cols rows path cur g = (moves, g1) :=
        ⟨_, _, rfl⟩
      rw [hmv] at heq
      have hmem := getNextMoves_mem cols rows path cur g
      rw [hmv] at hmem
      simp only at hmem
      have hstep : ∀ m ∈ moves, ∀ g3 : Rng,
          genPathLoop cols rows fuel (path ++ [m]) m g3 = (some out, g2) →
          out.length = cols * rows ∧ out.Nodup ∧
          (∀ q ∈ out, inBoundsB cols rows q = true) ∧ List.Chain' orthAdj out := by
        intro m hm g3 hrec
        obtain ⟨hb, hv, ha⟩ := hmem m hm
        refine ih (path ++ [m]) m g3 out g2 hrec (by simp) (by simp; omega)
          (by simp [List.nodup_append, hnd, hv]) ?_ ?_ (List.getLast?_concat _)
        · intro q hq
          rcases List.mem_append.mp hq with h | h
          · exact hbd q h
          · simp only [List.mem_singleton] at h
            subst h
            exact hb
        · rw [List.chain'_append]
          refine ⟨hch, List.chain'_singleton _, ?_⟩
          intro x hx y hy
          simp only [List.head?_cons, Option.mem_def, Option.some.injEq] at hy
          subst hy
          rw [Option.mem_def, hcur, Option.some.injEq] at hx
          subst hx
          exact ha
      match hms : moves with
      | [] =>
        simp only at heq
        exact absurd (congrArg Prod.fst heq) (by simp)
      | [m] =>
        simp only at heq
        exact hstep m (by simp) g1 heq
      | m0 :: m1 :: rest =>
        simp only [rngNext] at heq
        by_cases hv : g1 0 < (15 : Rat) / 100
        · rw [if_pos hv] at heq
          exact hstep m1 (by simp) (fun n => g1 (n + 1)) heq
        · rw [if_neg hv] at heq
          exact hstep m0 (by simp) (fun n => g1 (n + 1)) heq
    · rw [if_neg hlt] at heq
      injection congrArg Prod.fst heq with h
      obtain rfl : path = out := Option.some.injEq .. ▸ h
      exact ⟨by omega, hnd, hbd, hch⟩

theorem rowBlock_mem (r cols : Nat) (p : Pos) :
    (p ∈ (List.range cols).map fun (c : Nat) => (⟨(r : Int), (c : Int)⟩ : Pos)) ↔
      (p.row = (r : Int) ∧ 0 ≤ p.col ∧ p.col < (cols : Int)) := by
  simp only [List.mem_map, List.mem_range]
  constructor
  · rintro ⟨c, hc, rfl⟩
    dsimp only
    refine ⟨rfl, by positivity, by exact_mod_cast hc⟩
  · rintro ⟨h1, h2, h3⟩
    refine ⟨p.col.toNat, by omega, ?_⟩
    cases p with
    | mk a b =>
      dsimp only at h1 h2 h3 ⊢
      congr 1 <;> omega

theorem rowBlock_nodup (r cols : Nat) :
    ((List.range cols).map fun (c : Nat) => (⟨(r : Int), (c : Int)⟩ : Pos)).Nodup := by
  refine List.Nodup.map ?_ (List.nodup_range cols)
  intro a b hab
  simpa using congrArg Pos.col hab

theorem rowBlock_chain (r cols : Nat) :
    List.Chain' orthAdj
      ((List.range cols).map fun (c : Nat) => (⟨(r : Int), (c : Int)⟩ : Pos)) := by
  rw [List.chain'_map]
  cases cols with
  | zero => simp
  | succ k =>
    rw [List.chain'_range_succ]
    intro m _
    right
    refine ⟨rfl, ?_⟩
    dsimp only
    omega

theorem rowBlock_chain_rev (r cols : Nat) :
    List.Chain' orthAdj
      (((List.range cols).reverse).map fun (c : Nat) => (⟨(r : Int), (c : Int)⟩ : Pos)) := by
  rw [List.map_reverse, List.chain'_reverse]
  rw [List.chain'_map]
  cases cols with
  | zero => simp
  | succ k =>
    rw [List.chain'_range_succ]
    intro m _
    show orthAdj _ _
    right
    refine ⟨rfl, ?_⟩
    dsimp only
    omega

theorem rowBlock_getLast (r cols : Nat) (hc : 1 ≤ cols) :
    ((List.range cols).map fun (c : Nat) => (⟨(r : Int), (c : Int)⟩ : Pos)).getLast?
      = some ⟨(r : Int), (cols : Int) - 1⟩ := by
  conv_lhs => rw [show cols = (cols - 1) + 1 by omega, List.range_succ, List.map_append]
  rw [List.getLast?_append_of_ne_nil _ (by simp), List.map_cons, List.map_nil,
    List.getLast?_singleton]
  congr 2
  omega

theorem rowBlock_head (r cols : Nat) (hc : 1 ≤ cols) :
    ((List.range cols).map fun (c : Nat) => (⟨(r : Int), (c : Int)⟩ : Pos)).head?
      = some ⟨(r : Int), 0⟩ := by
  cases cols with
  | zero => omega
  | succ k => rw [List.range_succ_eq_map]; rfl

theorem rowBlock_rev_head (r cols : Nat) (hc : 1 ≤ cols) :
    (((List.range cols).reverse).map fun (c : Nat) => (⟨(r : Int), (c : Int)⟩ : Pos)).head?
      = some ⟨(r : Int), (cols : Int) - 1⟩ := by
  rw [List.map_reverse, List.head?_reverse, rowBlock_getLast r cols hc]

theorem rowBlock_rev_getLast (r cols : Nat) (hc : 1 ≤ cols) :
    (((List.range cols).reverse).map fun (c : Nat) => (⟨(r : Int), (c : Int)⟩ : Pos)).getLast?
      = some ⟨(r : Int), 0⟩ := by
  rw [List.map_reverse, List.getLast?_reverse, rowBlock_head r cols hc]

theorem snakePath_spec (cols : Nat) (hc : 1 ≤ cols) :
    ∀ rows, (snakePath cols rows).length = cols * rows ∧
      (snakePath cols rows).Nodup ∧
      (∀ p, p ∈ snakePath cols rows ↔ inBoundsB cols rows p = true) ∧
      List.Chain' orthAdj (snakePath cols rows) ∧
      (1 ≤ rows → (snakePath cols rows).getLast?
        = some ⟨(rows : Int) - 1,
            if (rows - 1) % 2 = 0 then (cols : Int) - 1 else 0⟩) := by
  intro rows
  induction rows with
  | zero =>
    refine ⟨by simp [snakePath], by simp [snakePath], ?_, by simp [snakePath],
      fun h => absurd h (by omega)⟩
    intro p
    simp [snakePath, inBoundsB]
    omega
  | succ rows ihr =>
    obtain ⟨ihlen, ihnd, ihmem, ihch, ihlast⟩ := ihr
    have hsplit : snakePath cols (rows + 1)
        = snakePath cols rows ++
          (if rows % 2 = 0 then
            (List.range cols).map fun (c : Nat) => (⟨(rows : Int), (c : Int)⟩ : Pos)
          else ((List.range cols).reverse).map
            fun (c : Nat) => (⟨(rows : Int), (c : Int)⟩ : Pos)) := by
      unfold snakePath
      rw [List.range_succ, List.flatMap_append]
      simp
    have hblockmem : ∀ p, (p ∈ (if rows % 2 = 0 then
          (List.range cols).map fun (c : Nat) => (⟨(rows : Int), (c : Int)⟩ : Pos)
        else ((List.range cols).reverse).map
          fun (c : Nat) => (⟨(rows : Int), (c : Int)⟩ : Pos))) ↔
        (p.row = (rows : Int) ∧ 0 ≤ p.col ∧ p.col < (cols : Int)) := by
      intro p
      by_cases hpar : rows % 2 = 0
      · rw [if_pos hpar, rowBlock_mem]
      · rw [if_neg hpar, List.map_reverse, List.mem_reverse]
        exact rowBlock_mem rows cols p
    refine ⟨?_, ?_, ?_, ?_, ?_⟩
    · rw [hsplit, List.length_append, ihlen]
      by_cases hpar : rows % 2 = 0 <;> simp [hpar, Nat.mul_succ]
    · rw [hsplit, List.nodup_append]
      refine ⟨ihnd, ?_, ?_⟩
      · by_cases hpar : rows % 2 = 0
        · rw [if_pos hpar]
          exact rowBlock_nodup rows cols
        · rw [if_neg hpar, List.map_reverse, List.nodup_reverse]
          exact rowBlock_nodup rows cols
      · intro p hp hpb
        have h1 := (ihmem p).mp hp
        have h2 := (hblockmem p).mp hpb
        simp only [inBoundsB, decide_eq_true_eq] at h1
        omega
    · intro p
      rw [hsplit, List.mem_append, ihmem, hblockmem]
      simp only [inBoundsB, decide_eq_true_eq]
      constructor
      · rintro (⟨h1, h2, h3, h4⟩ | ⟨h1, h2, h3⟩) <;> (push_cast; omega)
      · rintro ⟨h1, h2, h3, h4⟩
        push_cast at h2
        by_cases hrow : p.row < (rows : Int)
        · exact Or.inl ⟨h1, hrow, h3, h4⟩
        · exact Or.inr ⟨by omega, h3, h4⟩
    · rw [hsplit, List.chain'_append]
      refine ⟨ihch, ?_, ?_⟩
      · by_cases hpar : rows % 2 = 0
        · rw [if_pos hpar]
          exact rowBlock_chain rows cols
        · rw [if_neg hpar]
          exact rowBlock_chain_rev rows cols
      · intro x hx y hy
        rcases Nat.eq_zero_or_pos rows with hr0 | hrpos
        · subst hr0
          rw [show snakePath cols 0 = [] by simp [snakePath]] at hx
          simp at hx
        · rw [Option.mem_def, ihlast hrpos, Option.some.injEq] at hx
          subst hx
          by_cases hpar : rows % 2 = 0
          · rw [if_pos hpar, Option.mem_def, rowBlock_head rows cols hc,
              Option.some.injEq] at hy
            subst hy
            have hparodd : (rows - 1) % 2 = 1 := by omega
            rw [if_neg (by omega)]
            left
            constructor
            · dsimp only
              omega
            · rfl
          · rw [if_neg hpar, Option.mem_def, rowBlock_rev_head rows cols hc,
              Option.some.injEq] at hy
            subst hy
            have hpareven : (rows - 1) % 2 = 0 := by omega
            rw [if_pos hpareven]
            left
            constructor
            · dsimp only
              omega
            · rfl
    · intro _
      rw [hsplit]
      by_cases hpar : rows % 2 = 0
      · rw [if_pos hpar,
          List.getLast?_append_of_ne_nil _ (by simp; omega),
          rowBlock_getLast rows cols hc]
        rw [if_pos (by omega)]
        congr 1
        simp
      · rw [if_neg hpar,
          List.getLast?_append_of_ne_nil _ (by simp; omega),
          rowBlock_rev_getLast rows cols hc]
        rw [if_neg (by omega)]
        congr 1
        simp

/-- C2: every path accepted by the generator — the output of a successful
randomized Warnsdorff attempt as well as the snake fallback path — has length
`cols * rows`, contains every grid cell exactly once (it is duplicate-free
and its members are exactly the in-bounds cells), and each consecutive pair
of cells is orthogonally adjacent. -/
theorem c2_path_validity (cols rows : Nat) (start : Pos) (g : Rng)
    (hc : 1 ≤ cols) (hr : 1 ≤ rows) (hstart : inBoundsB cols rows start = true) :
    (∀ out g2, generateHamiltonianPath cols rows start g = (some out, g2) →
      out.length = cols * rows ∧ out.Nodup ∧
      (∀ p, p ∈ out ↔ inBoundsB cols rows p = true) ∧ List.Chain' orthAdj out) ∧
    ((snakePath cols rows).length = cols * rows ∧ (snakePath cols rows).Nodup ∧
      (∀ p, p ∈ snakePath cols rows ↔ inBoundsB cols rows p = true) ∧
      List.Chain' orthAdj (snakePath cols rows)) := by
  constructor
  · intro out g2 heq
    have hspec := genPathLoop_spec cols rows (cols * rows) [start] start g out g2 heq
      (by simp) (by simp; exact Nat.one_le_iff_ne_zero.mpr (by positivity))
      (List.nodup_singleton _) (by simpa using hstart)
      (List.chain'_singleton _) rfl
    obtain ⟨hlen, hnd, hbd, hch⟩ := hspec
    refine ⟨hlen, hnd, ?_, hch⟩
    have hsub : out ⊆ gridCells cols rows := by
      intro p hp
      exact (mem_gridCells cols rows p).mpr (hbd p hp)
    have hperm : out.Perm (gridCells cols rows) :=
      (hnd.subperm hsub).perm_of_length_le
        (by rw [gridCells_length, hlen, Nat.mul_comm])
    intro p
    constructor
    · intro hp
      exact hbd p hp
    · intro hp
      exact hperm.mem_iff.mpr ((mem_gridCells cols rows p).mpr hp)
  · obtain ⟨h1, h2, h3, h4, _⟩ := snakePath_spec cols hc rows
    exact ⟨h1, h2, h3, h4⟩

/-- C2 witness: on a 1x1 grid the builder returns the singleton path, and the
snake fallback validity holds on a concrete grid as well. -/
theorem c2_path_validity_witness :
    ([(⟨0, 0⟩ : Pos)].length = 1 * 1 ∧ [(⟨0, 0⟩ : Pos)].Nodup ∧
      (∀ p, p ∈ [(⟨0, 0⟩ : Pos)] ↔ inBoundsB 1 1 p = true) ∧
      List.Chain' orthAdj [(⟨0, 0⟩ : Pos)]) ∧
    ((snakePath 2 2).length = 2 * 2 ∧ (snakePath 2 2).Nodup ∧
      (∀ p, p ∈ snakePath 2 2 ↔ inBoundsB 2 2 p = true) ∧
      List.Chain' orthAdj (snakePath 2 2)) :=
  ⟨(c2_path_validity 1 1 ⟨0, 0⟩ zeroRng (by decide) (by decide) (by decide)).1
      [⟨0, 0⟩] zeroRng rfl,
   (c2_path_validity 2 2 ⟨0, 0⟩ zeroRng (by decide) (by decide) (by decide)).2⟩

/-- All canonical segment keys of a wall list, in order. -/
theorem availableEdges_not_path (cols rows : Nat) (pathKeys : List EdgeKey) :
    ∀ s ∈ availableEdges cols rows pathKeys, segKey s ∉ pathKeys := by
  intro s hs
  rcases List.mem_append.mp hs with h | h
  · obtain ⟨r, _, hr⟩ := List.mem_flatMap.mp h
    obtain ⟨c, _, hc⟩ := List.mem_filterMap.mp hr
    simp only [] at hc
    by_cases hp : normalizeEdge ⟨(r : Int), (c : Int)⟩ ⟨(r : Int) + 1, (c : Int)⟩ ∈ pathKeys
    · rw [if_pos hp] at hc
      exact absurd hc (by simp)
    · rw [if_neg hp] at hc
      injection hc with hceq
      rw [← hceq]
      simpa [segKey] using hp
  · obtain ⟨r, _, hr⟩ := List.mem_flatMap.mp h
    obtain ⟨c, _, hc⟩ := List.mem_filterMap.mp hr
    simp only [] at hc
    by_cases hp : normalizeEdge ⟨(r : Int), (c : Int)⟩ ⟨(r : Int), (c : Int) + 1⟩ ∈ pathKeys
    · rw [if_pos hp] at hc
      exact absurd hc (by simp)
    · rw [if_neg hp] at hc
      injection hc with hceq
      rw [← hceq]
      simpa [segKey] using hp

theorem fyLoop_subset :
    ∀ (i : Nat) (l : List WallSegment) (g : Rng) (l2 : List WallSegment) (g2 : Rng),
      fyLoop i l g = some (l2, g2) → ∀ s ∈ l2, s ∈ l := by
  intro i
  induction i with
  | zero =>
    intro l g l2 g2 heq s hs
    rw [fyLoop] at heq
    injection heq with h
    injection h with h1 h2
    rw [← h1] at hs
    exact hs
  | succ k ihk =>
    intro l g l2 g2 heq s hs
    rw [fyLoop] at heq
    simp only at heq
    match ha : l.get? (k + 1), hb : l.get? ((Int.floor ((rngNext g).1 * ((k + 1 : Nat) + 1 : Rat))).toNat) with
    | some a, some b =>
      rw [ha, hb] at heq
      have := ihk _ _ _ _ heq s hs
      rcases List.mem_or_eq_of_mem_set this with h2 | h2
      · rcases List.mem_or_eq_of_mem_set h2 with h3 | h3
        · exact h3
        · subst h3
          exact List.get?_mem hb
      · subst h2
        exact List.get?_mem ha
    | some a, none => rw [ha, hb] at heq; exact absurd heq (by simp)
    | none, some b => rw [ha, hb] at heq; exact absurd heq (by simp)
    | none, none => rw [ha, hb] at heq; exact absurd heq (by simp)

theorem findConnectedSegment_spec (current : WallSegment) (existing : List WallSegment)
    (avail : List WallSegment) (used pathKeys : List EdgeKey) (g : Rng)
    (seg : WallSegment) (g1 : Rng)
    (heq : findConnectedSegment current existing avail used pathKeys g = (some seg, g1)) :
    segKey seg ∉ existing.map segKey ∧ segKey seg ∉ used ∧ segKey seg ∉ pathKeys := by
  unfold findConnectedSegment at heq
  simp only at heq
  set candidates := ([current.cell1, current.cell2]).flatMap (fun cell =>
    (neighborsOf cell).filterMap fun nb =>
      let k := normalizeEdge cell nb
      match edgeMapGet avail k with
      | some seg =>
        if k ∉ existing.map segKey ∧ k ∉ used ∧ k ∉ pathKeys then some seg else none
      | none => none) with hcand
  have hmem : seg ∈ candidates := by
    match hcs : candidates with
    | [] =>
      simp only at heq
      exact absurd (congrArg Prod.fst heq) (by simp)
    | c0 :: cs =>
      simp only at heq
      have hfst := congrArg Prod.fst heq
      simp only at hfst
      exact List.get?_mem hfst
  obtain ⟨cell, _, hcell⟩ := List.mem_flatMap.mp (hcand ▸ hmem)
  obtain ⟨nb, _, hnb⟩ := List.mem_filterMap.mp hcell
  simp only [] at hnb
  match hget : edgeMapGet avail (normalizeEdge cell nb) with
  | none => rw [hget] at hnb; exact absurd hnb (by simp)
  | some seg0 =>
    rw [hget] at hnb
    simp only [] at hnb
    by_cases hcond : normalizeEdge cell nb ∉ existing.map segKey ∧
        normalizeEdge cell nb ∉ used ∧ normalizeEdge cell nb ∉ pathKeys
    · rw [if_pos hcond] at hnb
      injection hnb with hseg
      have hkey : segKey seg0 = normalizeEdge cell nb := by
        have := List.find?_some hget
        simpa using this
      rw [← hseg, hkey]
      exact hcond
    · rw [if_neg hcond] at hnb
      exact absurd hnb (by simp)

theorem buildWallLoop_spec (avail : List WallSegment) (used pathKeys : List EdgeKey) :
    ∀ (k : Nat) (cur : WallSegment) (segs : List WallSegment) (g : Rng)
      (out : List WallSegment) (g2 : Rng),
      buildWallLoop avail used pathKeys k cur segs g = (out, g2) →
      (segs.map segKey).Nodup → (∀ s ∈ segs, segKey s ∉ used ∧ segKey s ∉ pathKeys) →
      (out.map segKey).Nodup ∧ (∀ s ∈ out, segKey s ∉ used ∧ segKey s ∉ pathKeys) := by
  intro k
  induction k with
  | zero =>
    intro cur segs g out g2 heq hnd hprop
    rw [buildWallLoop] at heq
    injection heq with h1 h2
    subst h1
    exact ⟨hnd, hprop⟩
  | succ k ihk =>
    intro cur segs g out g2 heq hnd hprop
    rw [buildWallLoop] at heq
    match hfind : findConnectedSegment cur segs avail used pathKeys g with
    | (some nxt, g1) =>
      rw [hfind] at heq
      obtain ⟨hex, hus, hpk⟩ := findConnectedSegment_spec cur segs avail used pathKeys g
        nxt g1 hfind
      refine ihk nxt (segs ++ [nxt]) g1 out g2 heq ?_ ?_
      · rw [List.map_append, List.nodup_append]
        refine ⟨hnd, by simp, ?_⟩
        intro x hx hxn
        simp only [List.map_cons, List.map_nil, List.mem_singleton] at hxn
        subst hxn
        exact hex hx
      · intro s hs
        rcases List.mem_append.mp hs with h | h
        · exact hprop s h
        · simp only [List.mem_singleton] at h
          subst h
          exact ⟨hus, hpk⟩
    | (none, g1) =>
      rw [hfind] at heq
      injection heq with h1 h2
      subst h1
      exact ⟨hnd, hprop⟩

theorem buildMultiSegmentWall_spec (startEdge : WallSegment) (avail : List WallSegment)
    (used pathKeys : List EdgeKey) (g : Rng) (w : Wall) (g2 : Rng)
    (heq : buildMultiSegmentWall startEdge avail used pathKeys g = (some w, g2))
    (hstart : segKey startEdge ∉ used ∧ segKey startEdge ∉ pathKeys) :
    (w.segments.map segKey).Nodup ∧
    (∀ s ∈ w.segments, segKey s ∉ used ∧ segKey s ∉ pathKeys) := by
  unfold buildMultiSegmentWall at heq
  simp only at heq
  set tl := if (rngNext g).1 < (6 : Rat) / 10 then 2 else 3 with htl
  match hloop : buildWallLoop avail used pathKeys (tl - 1) startEdge [startEdge] (rngNext g).2 with
  | (segs, g3) =>
    rw [hloop] at heq
    have hspec := buildWallLoop_spec avail used pathKeys (tl - 1) startEdge [startEdge]
      (rngNext g).2 segs g3 hloop (by simp)
      (by intro s hs; simp only [List.mem_singleton] at hs; subst hs; exact hstart)
    by_cases hlen : 2 ≤ segs.length
    · rw [if_pos hlen] at heq
      injection heq with h1 h2
      injection h1 with h1
      subst h1
      exact hspec
    · rw [if_neg hlen] at heq
      exact absurd (congrArg Prod.fst heq) (by simp)

theorem wallsLoop_spec (avail : List WallSegment) (pathKeys : List EdgeKey)
    (numWalls : Nat) :
    ∀ (shuffled : List WallSegment) (walls : List Wall) (used : List EdgeKey) (g : Rng)
      (out : List Wall) (g2 : Rng),
      wallsLoop avail pathKeys numWalls shuffled walls used g = (out, g2) →
      (∀ s ∈ shuffled, segKey s ∉ pathKeys) →
      (walls.flatMap fun w => w.segments.map segKey).Nodup →
      (∀ w ∈ walls, ∀ s ∈ w.segments, segKey s ∉ pathKeys) →
      (∀ w ∈ walls, ∀ s ∈ w.segments, segKey s ∈ used) →
      (out.flatMap fun w => w.segments.map segKey).Nodup ∧
      (∀ w ∈ out, ∀ s ∈ w.segments, segKey s ∉ pathKeys) := by
  intro shuffled
  induction shuffled with
  | nil =>
    intro walls used g out g2 heq _ hnd hpk _
    rw [wallsLoop] at heq
    injection heq with h1 h2
    subst h1
    exact ⟨hnd, hpk⟩
  | cons startEdge rest ihr =>
    intro walls used g out g2 heq hsh hnd hpk hus
    rw [wallsLoop] at heq
    by_cases hquota : numWalls ≤ walls.length
    · rw [if_pos hquota] at heq
      injection heq with h1 h2
      subst h1
      exact ⟨hnd, hpk⟩
    · rw [if_neg hquota] at heq
      by_cases hused : segKey startEdge ∈ used
      · rw [if_pos hused] at heq
        exact ihr walls used g out g2 heq (fun s hs => hsh s (by simp [hs])) hnd hpk hus
      · rw [if_neg hused] at heq
        match hbuild : buildMultiSegmentWall startEdge avail used pathKeys g with
        | (some w, g1) =>
          rw [hbuild] at heq
          simp only at heq
          obtain ⟨hwnd, hwprop⟩ := buildMultiSegmentWall_spec startEdge avail used pathKeys
            g w g1 hbuild ⟨hused, hsh startEdge (by simp)⟩
          refine ihr (walls ++ [w]) (used ++ w.segments.map segKey) g1 out g2 heq
            (fun s hs => hsh s (by simp [hs])) ?_ ?_ ?_
          · rw [List.flatMap_append, List.nodup_append]
            refine ⟨hnd, by simpa using hwnd, ?_⟩
            intro x hx hxw
            simp only [List.flatMap_cons, List.flatMap_nil, List.append_nil] at hxw
            obtain ⟨w0, hw0, hxw0⟩ := List.mem_flatMap.mp hx
            obtain ⟨s0, hs0, hxs0⟩ := List.mem_map.mp hxw0
            obtain ⟨s1, hs1, hxs1⟩ := List.mem_map.mp hxw
            have hxused : x ∈ used := hxs0 ▸ hus w0 hw0 s0 hs0
            have := (hwprop s1 hs1).1
            rw [← hxs1] at hxused
            exact this hxused
          · intro w0 hw0 s hs
            rcases List.mem_append.mp hw0 with h | h
            · exact hpk w0 h s hs
            · simp only [List.mem_singleton] at h
              subst h
              exact (hwprop s hs).2
          · intro w0 hw0 s hs
            rcases List.mem_append.mp hw0 with h | h
            · exact List.mem_append_left _ (hus w0 h s hs)
            · simp only [List.mem_singleton] at h
              subst h
              exact List.mem_append_right _ (List.mem_map_of_mem segKey hs)
        | (none, g1) =>
          rw [hbuild] at heq
          simp only at heq
          exact ihr walls used g1 out g2 heq (fun s hs => hsh s (by simp [hs]))
            hnd hpk hus

/-- C5: in every wall set the generator produces (for any path and difficulty,
in both the randomized attempt and the fallback, which share `generateWalls`),
no wall segment's canonical edge coincides with an edge between consecutive
path cells, and the canonical keys of all segments of all walls are pairwise
distinct — no edge belongs to two walls. -/
theorem c5_wall_disjointness (cols rows : Nat) (path : List Pos) (difficulty : Nat)
    (g : Rng) :
    ∀ walls g2, generateWalls cols rows path difficulty g = some (walls, g2) →
      (∀ w ∈ walls, ∀ s ∈ w.segments, segKey s ∉ pathEdgeKeys path) ∧
      (walls.flatMap fun w => w.segments.map segKey).Nodup := by
  intro walls g2 heq
  unfold generateWalls at heq
  by_cases hdiff : difficulty < 7
  · rw [if_pos hdiff] at heq
    injection heq with h
    injection h with h1 h2
    subst h1
    exact ⟨by simp, by simp⟩
  · rw [if_neg hdiff] at heq
    simp only at heq
    match hshuf : shuffleEdges (availableEdges cols rows (pathEdgeKeys path)) g with
    | none => rw [hshuf] at heq; exact absurd heq (by simp)
    | some (shuffled, g1) =>
      rw [hshuf] at heq
      simp only [Option.map_some'] at heq
      injection heq with h
      have hsh : ∀ s ∈ shuffled, segKey s ∉ pathEdgeKeys path := by
        intro s hs
        exact availableEdges_not_path cols rows (pathEdgeKeys path) s
          (fyLoop_subset _ _ _ _ _ hshuf s hs)
      match hloop : wallsLoop (availableEdges cols rows (pathEdgeKeys path))
          (pathEdgeKeys path) (numWallsFor difficulty) shuffled [] [] g1 with
      | (outWalls, g3) =>
        rw [hloop] at h
        injection h with h1 h2
        subst h1
        obtain ⟨hnd, hpk⟩ := wallsLoop_spec _ _ _ shuffled [] [] g1 outWalls g3 hloop
          hsh (by simp) (by simp) (by simp)
        exact ⟨hpk, hnd⟩

/-- C5 witness: below difficulty 7 the generator returns no walls, which are
trivially disjoint from the path. -/
theorem c5_wall_disjointness_witness :
    (∀ w ∈ ([] : List Wall), ∀ s ∈ w.segments, segKey s ∉ pathEdgeKeys []) ∧
    (([] : List Wall).flatMap fun w => w.segments.map segKey).Nodup :=
  c5_wall_disjointness 2 2 [] 1 zeroRng [] zeroRng rfl

theorem floor_mul_toNat_lt {v : Rat} (len : Nat) (h1 : v < 1)
    (hlen : 0 < len) : (Int.floor (v * (len : Rat))).toNat < len := by
  have hlt : Int.floor (v * (len : Rat)) < (len : Int) := by
    apply Int.floor_lt.mpr
    push_cast
    have : v * (len : Rat) < 1 * (len : Rat) := by
      apply mul_lt_mul_of_pos_right h1
      exact_mod_cast hlen
    linarith
  omega

theorem startCandidates_inBounds (cols rows difficulty : Nat)
    (hc : 2 ≤ cols) (hr : 2 ≤ rows) :
    ∀ p ∈ startCandidates cols rows difficulty, inBoundsB cols rows p = true := by
  intro p hp
  unfold startCandidates at hp
  simp only [List.mem_append, List.mem_cons, List.not_mem_nil, or_false] at hp
  rcases hp with ((rfl | rfl | rfl | rfl) | hp) | hp
  · simp [inBoundsB]; omega
  · simp [inBoundsB]; omega
  · simp [inBoundsB]; omega
  · simp [inBoundsB]; omega
  · by_cases h3 : 3 < difficulty
    · rw [if_pos h3] at hp
      rcases List.mem_append.mp hp with h | h
      · obtain ⟨c, hc2, hcm⟩ := List.mem_flatMap.mp h
        rw [List.mem_range'] at hc2
        obtain ⟨i, hi, rfl⟩ := hc2
        simp only [List.mem_cons, List.not_mem_nil, or_false] at hcm
        rcases hcm with rfl | rfl <;> (simp [inBoundsB]; omega)
      · obtain ⟨r, hr2, hrm⟩ := List.mem_flatMap.mp h
        rw [List.mem_range'] at hr2
        obtain ⟨i, hi, rfl⟩ := hr2
        simp only [List.mem_cons, List.not_mem_nil, or_false] at hrm
        rcases hrm with rfl | rfl <;> (simp [inBoundsB]; omega)
    · rw [if_neg h3] at hp
      simp at hp
  · by_cases h7 : 7 < difficulty
    · rw [if_pos h7] at hp
      simp only [List.mem_cons, List.not_mem_nil, or_false] at hp
      rcases hp with rfl | rfl | rfl <;> (simp [inBoundsB]; constructor <;> omega)
    · rw [if_neg h7] at hp
      simp at hp

theorem chooseStartPosition_spec (cols rows difficulty : Nat) (g : Rng)
    (hg : RngBounded g) :
    ∃ p, chooseStartPosition cols rows difficulty g = (some p, (rngNext g).2) ∧
      p ∈ startCandidates cols rows difficulty := by
  unfold chooseStartPosition
  simp only [rngNext]
  have hlen : 0 < (startCandidates cols rows difficulty).length := by
    unfold startCandidates
    simp
  have hidx := floor_mul_toNat_lt (startCandidates cols rows difficulty).length
    (hg 0).2 hlen
  obtain ⟨p, hp⟩ : ∃ p, (startCandidates cols rows difficulty).get?
      (Int.floor (g 0 * ((startCandidates cols rows difficulty).length : Rat))).toNat
      = some p := ⟨_, List.get?_eq_get hidx⟩
  exact ⟨p, by rw [hp], List.get?_mem hp⟩

theorem getNextMoves_bounded (cols rows : Nat) (visited : List Pos) (p : Pos)
    (g : Rng) (hg : RngBounded g) :
    RngBounded (getNextMoves cols rows visited p g).2 := by
  unfold getNextMoves
  simp only
  have key : ∀ (ds : List (Int × Int)) (st : List (Pos × Rat) × Rng), RngBounded st.2 →
      RngBounded (ds.foldl (fun (acc : List (Pos × Rat) × Rng) (d : Int × Int) =>
        let q : Pos := ⟨p.row + d.1, p.col + d.2⟩
        if inBoundsB cols rows q && !(decide (q ∈ visited)) then
          let v := rngNext acc.2
          (acc.1 ++ [(q, (countUnvisitedNeighbors cols rows visited q : Rat) + v.1 * (1 / 2))], v.2)
        else acc) st).2 := by
    intro ds
    induction ds with
    | nil => intro st h; exact h
    | cons d ds ihd =>
      intro st h
      rw [List.foldl_cons]
      apply ihd
      by_cases hc : inBoundsB cols rows (⟨p.row + d.1, p.col + d.2⟩ : Pos)
          && !(decide ((⟨p.row + d.1, p.col + d.2⟩ : Pos) ∈ visited))
      · simp only [hc, if_true]
        exact fun n => h (n + 1)
      · simp only [hc, if_false]
        exact h
  exact key directions ([], g) hg

theorem genPathLoop_bounded (cols rows : Nat) :
    ∀ (fuel : Nat) (path : List Pos) (cur : Pos) (g : Rng), RngBounded g →
      RngBounded (genPathLoop cols rows fuel path cur g).2 := by
  intro fuel
  induction fuel with
  | zero =>
    intro path cur g hg
    rw [genPathLoop]
    by_cases hlt : path.length < cols * rows <;> simp [hlt, hg]
  | succ fuel ih =>
    intro path cur g hg
    rw [genPathLoop]
    by_cases hlt : path.length < cols * rows
    · rw [if_pos hlt]
      have hb1 := getNextMoves_bounded cols rows path cur g hg
      match hmv : getNextMoves cols rows path cur g with
      | (moves, g1) =>
        rw [hmv] at hb1
        simp only at hb1 ⊢
        match moves with
        | [] => exact hb1
        | [m] => exact ih (path ++ [m]) m g1 hb1
        | m0 :: m1 :: rest =>
          simp only [rngNext]
          by_cases hv : g1 0 < (15 : Rat) / 100
          · rw [if_pos hv]
            exact ih _ _ _ (fun n => hb1 (n + 1))
          · rw [if_neg hv]
            exact ih _ _ _ (fun n => hb1 (n + 1))
    · rw [if_neg hlt]
      exact hg

theorem growGridLoop_spec (minCells : Nat) :
    ∀ (fuel cols rows : Nat), 1 ≤ cols → 1 ≤ rows →
      minCells - cols * rows ≤ fuel →
      cols ≤ (growGridLoop minCells fuel cols rows).1 ∧
      rows ≤ (growGridLoop minCells fuel cols rows).2 ∧
      minCells ≤ (growGridLoop minCells fuel cols rows).1
        * (growGridLoop minCells fuel cols rows).2 := by
  intro fuel
  induction fuel with
  | zero =>
    intro cols rows hc hr hfuel
    rw [growGridLoop]
    exact ⟨le_refl _, le_refl _, show minCells ≤ cols * rows by omega⟩
  | succ fuel ih =>
    intro cols rows hc hr hfuel
    rw [growGridLoop]
    by_cases hlt : cols * rows < minCells
    · rw [if_pos hlt]
      by_cases hcr : cols ≤ rows
      · rw [if_pos hcr]
        have hstep : (cols + 1) * rows = cols * rows + rows := by ring
        obtain ⟨h1, h2, h3⟩ := ih (cols + 1) rows (by omega) hr (by omega)
        exact ⟨by omega, h2, h3⟩
      · rw [if_neg hcr]
        have hstep : cols * (rows + 1) = cols * rows + cols := by ring
        obtain ⟨h1, h2, h3⟩ := ih cols (rows + 1) hc (by omega) (by omega)
        exact ⟨h1, by omega, h3⟩
    · rw [if_neg hlt]
      exact ⟨le_refl _, le_refl _, show minCells ≤ cols * rows by omega⟩

theorem wordFor_spec (difficulty : Nat) (hd : 1 ≤ difficulty) :
    ∃ word, wordFor difficulty = some word ∧ 2 ≤ word.length := by
  unfold wordFor
  by_cases h9 : difficulty ≤ LEVEL_WORD_SEQUENCE.length
  · rw [if_pos h9]
    have hlen : difficulty - 1 < LEVEL_WORD_SEQUENCE.length := by
      have hL : LEVEL_WORD_SEQUENCE.length = 9 := rfl
      omega
    obtain ⟨w, hw⟩ : ∃ w, LEVEL_WORD_SEQUENCE.get? (difficulty - 1) = some w :=
      ⟨_, List.get?_eq_get hlen⟩
    refine ⟨w, hw, ?_⟩
    have hmem := List.get?_mem hw
    have : ∀ w ∈ LEVEL_WORD_SEQUENCE, 2 ≤ w.length := by decide
    exact this w hmem
  · rw [if_neg h9]
    have hlen : (difficulty - 10) % HARD_WORDS.length < HARD_WORDS.length := by
      apply Nat.mod_lt
      simp [HARD_WORDS]
    obtain ⟨w, hw⟩ : ∃ w, HARD_WORDS.get? ((difficulty - 10) % HARD_WORDS.length)
        = some w := ⟨_, List.get?_eq_get hlen⟩
    refine ⟨w, hw, ?_⟩
    have hmem := List.get?_mem hw
    have : ∀ w ∈ HARD_WORDS, 2 ≤ w.length := by decide
    exact this w hmem

theorem gridConfig_spec (difficulty : Nat) :
    ∃ gc, GRID_CONFIG_BY_DIFFICULTY.get? (min ((difficulty - 1) / 3) 3) = some gc ∧
      2 ≤ gc.1 ∧ 2 ≤ gc.2 := by
  have hlen : min ((difficulty - 1) / 3) 3 < GRID_CONFIG_BY_DIFFICULTY.length := by
    have hL : GRID_CONFIG_BY_DIFFICULTY.length = 4 := rfl
    omega
  obtain ⟨gc, hgc⟩ : ∃ gc, GRID_CONFIG_BY_DIFFICULTY.get? (min ((difficulty - 1) / 3) 3)
      = some gc := ⟨_, List.get?_eq_get hlen⟩
  refine ⟨gc, hgc, ?_⟩
  have hmem := List.get?_mem hgc
  have : ∀ gc ∈ GRID_CONFIG_BY_DIFFICULTY, 2 ≤ gc.1 ∧ 2 ≤ gc.2 := by decide
  exact this gc hmem

theorem createGrid_isSome (cols rows : Nat) (path : List Pos) (word : String)
    (lps : List Int) (hlen : lps.length = word.length)
    (hvalid : ∀ x ∈ lps, 0 ≤ x ∧ x.toNat < path.length)
    (hbd : ∀ p ∈ path, inBoundsB cols rows p = true) :
    (createGrid cols rows path word lps).isSome := by
  unfold createGrid
  simp only
  have key : ∀ k, k ≤ word.length → ∀ grid : List (List Char), grid.length = rows →
      ∃ grid2, (List.range k).foldlM
        (fun grid i =>
          (lps.get? i).bind fun idx =>
          (posAt path idx).bind fun pos =>
          (word.toList.get? i).bind fun ch =>
          if 0 ≤ pos.row ∧ pos.row.toNat < grid.length then
            (grid.get? pos.row.toNat).map fun rowList =>
              grid.set pos.row.toNat (rowList.set pos.col.toNat ch)
          else none) grid = some grid2 ∧ grid2.length = rows := by
    intro k
    induction k with
    | zero => intro _ grid hgrid; exact ⟨grid, rfl, hgrid⟩
    | succ k ihk =>
      intro hk grid hgrid
      obtain ⟨grid2, hfold, hg2len⟩ := ihk (by omega) grid hgrid
      rw [List.range_succ, List.foldlM_append, hfold]
      simp only [Option.bind_eq_bind, Option.some_bind, List.foldlM_cons, List.foldlM_nil]
      have hklt : k < lps.length := by omega
      obtain ⟨idx, hidx⟩ : ∃ idx, lps.get? k = some idx := ⟨_, List.get?_eq_get hklt⟩
      obtain ⟨hnn, hlt⟩ := hvalid idx (List.get?_mem hidx)
      obtain ⟨pos, hpos⟩ : ∃ pos, path.get? idx.toNat = some pos :=
        ⟨_, List.get?_eq_get hlt⟩
      have hposAt : posAt path idx = some pos := by
        unfold posAt
        rw [if_pos hnn, hpos]
      have hchlt : k < word.toList.length := by
        have hL : word.toList.length = word.length := rfl
        omega
      obtain ⟨ch, hch⟩ : ∃ ch, word.toList.get? k = some ch :=
        ⟨_, List.get?_eq_get hchlt⟩
      have hmem := List.get?_mem hpos
      have hinb := hbd pos hmem
      simp only [inBoundsB, decide_eq_true_eq] at hinb
      have hrow : 0 ≤ pos.row ∧ pos.row.toNat < grid2.length := by
        rw [hg2len]
        omega
      obtain ⟨rowList, hrl⟩ : ∃ rl, grid2.get? pos.row.toNat = some rl :=
        ⟨_, List.get?_eq_get hrow.2⟩
      rw [hidx]
      simp only [Option.bind_eq_bind, Option.some_bind]
      rw [hposAt]
      simp only [Option.some_bind]
      rw [hch]
      simp only [Option.some_bind, if_pos hrow, hrl, Option.map_some']
      exact ⟨_, rfl, by rw [List.length_set]; exact hg2len⟩
  obtain ⟨grid2, hfold, _⟩ := key word.length (le_refl _)
    (List.replicate rows (List.replicate cols '.')) (by simp)
  rw [hfold]
  rfl

theorem createLetterOrderMap_isSome (path : List Pos) (word : String) (lps : List Int)
    (hlen : lps.length = word.length)
    (hvalid : ∀ x ∈ lps, 0 ≤ x ∧ x.toNat < path.length) :
    (createLetterOrderMap path word lps).isSome := by
  rw [createLetterOrderMap_eq path word lps hlen hvalid]
  rfl

theorem fyLoop_isSome :
    ∀ (i : Nat) (l : List WallSegment) (g : Rng), RngBounded g → i < l.length →
      ∃ l2 g2, fyLoop i l g = some (l2, g2) := by
  intro i
  induction i with
  | zero => intro l g _ _; exact ⟨l, g, rfl⟩
  | succ k ihk =>
    intro l g hg hi
    rw [fyLoop]
    simp only [rngNext]
    have hj : (Int.floor (g 0 * ((k + 1 + 1 : Nat) : Rat))).toNat < l.length := by
      have := @floor_mul_toNat_lt (g 0) (k + 1 + 1) (hg 0).2 (by omega)
      omega
    obtain ⟨a, ha⟩ : ∃ a, l.get? (k + 1) = some a := ⟨_, List.get?_eq_get hi⟩
    obtain ⟨b, hb⟩ : ∃ b, l.get?
        (Int.floor (g 0 * ((k + 1 + 1 : Nat) : Rat))).toNat = some b :=
      ⟨_, List.get?_eq_get hj⟩
    rw [show ((k + 1 : Nat) + 1 : Rat) = ((k + 1 + 1 : Nat) : Rat) by push_cast; ring]
    rw [ha, hb]
    exact ihk _ _ (fun n => hg (n + 1)) (by simp [List.length_set]; omega)

theorem generateWalls_isSome (cols rows : Nat) (path : List Pos) (difficulty : Nat)
    (g : Rng) (hg : RngBounded g) : (generateWalls cols rows path difficulty g).isSome := by
  unfold generateWalls
  by_cases hdiff : difficulty < 7
  · rw [if_pos hdiff]
    rfl
  · rw [if_neg hdiff]
    simp only
    unfold shuffleEdges
    by_cases hnil : availableEdges cols rows (pathEdgeKeys path) = []
    · rw [hnil]
      rfl
    · have hpos : 0 < (availableEdges cols rows (pathEdgeKeys path)).length :=
        List.length_pos.mpr hnil
      have hlt : (availableEdges cols rows (pathEdgeKeys path)).length - 1
          < (availableEdges cols rows (pathEdgeKeys path)).length := by omega
      obtain ⟨l2, g2, hfy⟩ := fyLoop_isSome
        ((availableEdges cols rows (pathEdgeKeys path)).length - 1)
        (availableEdges cols rows (pathEdgeKeys path)) g hg hlt
      rw [hfy]
      rfl

theorem tryGenerateLevel_spec (word : String) (cols rows difficulty : Nat) (g : Rng)
    (hg : RngBounded g) (hw : 2 ≤ word.length) (hcr : 4 * word.length ≤ cols * rows)
    (hc : 2 ≤ cols) (hr : 2 ≤ rows) :
    ∃ res g2, tryGenerateLevel word cols rows difficulty g = some (res, g2) ∧
      (res = none → RngBounded g2) := by
  unfold tryGenerateLevel
  obtain ⟨start, hstart, hmem⟩ := chooseStartPosition_spec cols rows difficulty g hg
  rw [hstart]
  dsimp only
  have hsb := startCandidates_inBounds cols rows difficulty hc hr start hmem
  have hg1 : RngBounded (rngNext g).2 := fun n => hg (n + 1)
  have hbloop := genPathLoop_bounded cols rows (cols * rows) [start] start (rngNext g).2 hg1
  match hpath : generateHamiltonianPath cols rows start (rngNext g).2 with
  | (none, g2) =>
    refine ⟨none, g2, rfl, fun _ => ?_⟩
    unfold generateHamiltonianPath at hpath
    rw [hpath] at hbloop
    exact hbloop
  | (some path, g2) =>
    have hg2 : RngBounded g2 := by
      unfold generateHamiltonianPath at hpath
      rw [hpath] at hbloop
      exact hbloop
    dsimp only
    by_cases hplen : path.length ≠ cols * rows
    · rw [if_pos hplen]
      exact ⟨none, g2, rfl, fun _ => hg2⟩
    · rw [if_neg hplen]
      push_neg at hplen
      obtain ⟨hlen, hnd, hbd, hch⟩ := genPathLoop_spec cols rows (cols * rows)
        [start] start (rngNext g).2 path g2
        (by unfold generateHamiltonianPath at hpath; exact hpath)
        (by simp) (by simp; exact Nat.one_le_iff_ne_zero.mpr (by positivity))
        (List.nodup_singleton _) (by simpa using hsb)
        (List.chain'_singleton _) rfl
      obtain ⟨lps, g3, hlps, hg3, hlpslen, hlpschain, hlpshead, hlpslast, hlpsmem⟩ :=
        calculateLetterPositions_spec path word g2 hw (by rw [hlen]; exact hcr) hg2
      have hvalid : ∀ x ∈ lps, 0 ≤ x ∧ x.toNat < path.length := by
        intro x hx
        have := hlpsmem x hx
        omega
      obtain ⟨grid, hgrid⟩ := Option.isSome_iff_exists.mp
        (createGrid_isSome cols rows path word lps hlpslen hvalid hbd)
      obtain ⟨lomap, hlomap⟩ := Option.isSome_iff_exists.mp
        (createLetterOrderMap_isSome path word lps hlpslen hvalid)
      obtain ⟨wg, hwg⟩ := Option.isSome_iff_exists.mp
        (generateWalls_isSome cols rows path difficulty g3 hg3)
      rw [hlps]
      dsimp only
      simp only [hgrid, hlomap, hwg, Option.some_bind, Option.bind_eq_bind,
        Option.map_some']
      exact ⟨_, _, rfl, fun hcon => absurd hcon (by simp)⟩

theorem attemptLoop_spec (word : String) (cols rows difficulty : Nat)
    (hw : 2 ≤ word.length) (hcr : 4 * word.length ≤ cols * rows)
    (hc : 2 ≤ cols) (hr : 2 ≤ rows) :
    ∀ (k : Nat) (g : Rng), RngBounded g →
      ∃ res g2, attemptLoop word cols rows difficulty k g = some (res, g2) ∧
        (res = none → RngBounded g2) := by
  intro k
  induction k with
  | zero =>
    intro g hg
    exact ⟨none, g, rfl, fun _ => hg⟩
  | succ k ihk =>
    intro g hg
    obtain ⟨res, g2, htry, hbres⟩ :=
      tryGenerateLevel_spec word cols rows difficulty g hg hw hcr hc hr
    rw [attemptLoop, htry]
    match res, htry with
    | some cfg, _ => exact ⟨some cfg, g2, rfl, fun hcon => absurd hcon (by simp)⟩
    | none, _ => exact ihk g2 (hbres rfl)

theorem generateFallbackLevel_isSome (word : String) (cols rows difficulty : Nat)
    (g : Rng) (hg : RngBounded g) (hw : 2 ≤ word.length)
    (hcr : 4 * word.length ≤ cols * rows) (hc : 1 ≤ cols) :
    (generateFallbackLevel word cols rows difficulty g).isSome := by
  obtain ⟨hslen, hsnd, hsmem, hsch, _⟩ := snakePath_spec cols hc rows
  unfold generateFallbackLevel
  obtain ⟨lps, g3, hlps, hg3, hlpslen, _, _, _, hlpsmem⟩ :=
    calculateLetterPositions_spec (snakePath cols rows) word g hw
      (by rw [hslen]; exact hcr) hg
  have hvalid : ∀ x ∈ lps, 0 ≤ x ∧ x.toNat < (snakePath cols rows).length := by
    intro x hx
    have := hlpsmem x hx
    omega
  obtain ⟨grid, hgrid⟩ := Option.isSome_iff_exists.mp
    (createGrid_isSome cols rows (snakePath cols rows) word lps hlpslen hvalid
      (fun p hp => (hsmem p).mp hp))
  obtain ⟨lomap, hlomap⟩ := Option.isSome_iff_exists.mp
    (createLetterOrderMap_isSome (snakePath cols rows) word lps hlpslen hvalid)
  obtain ⟨wg, hwg⟩ := Option.isSome_iff_exists.mp
    (generateWalls_isSome cols rows (snakePath cols rows) difficulty g3 hg3)
  dsimp only
  rw [hlps]
  simp only [hgrid, hlomap, hwg, Option.some_bind, Option.bind_eq_bind, Option.map_some']
  rfl

/-- C1: for every difficulty at least 1 and every random source with values in
`[0,1)` (as `Math.random` guarantees), `generateLevel` returns a
`LevelConfig` — no crash layer `none` is ever reached: the randomized
attempts either succeed or are absorbed, and the snake fallback always
succeeds. -/
theorem c1_generator_totality (difficulty : Nat) (g : Rng) (hd : 1 ≤ difficulty)
    (hg : RngBounded g) : (generateLevel g difficulty).isSome := by
  unfold generateLevel
  obtain ⟨word, hword, hwlen⟩ := wordFor_spec difficulty hd
  obtain ⟨gc, hgc, hgc1, hgc2⟩ := gridConfig_spec difficulty
  rw [hword, hgc]
  simp only [Option.some_bind, Option.bind_eq_bind]
  obtain ⟨h1, h2, h3⟩ := growGridLoop_spec (word.length * 4) (word.length * 4)
    gc.1 gc.2 (by omega) (by omega) (by omega)
  set cr := growGridLoop (word.length * 4) (word.length * 4) gc.1 gc.2 with hcr
  obtain ⟨res, g2, hloop, hbres⟩ := attemptLoop_spec word cr.1 cr.2 difficulty hwlen
    (by omega) (by omega) (by omega) 100 g hg
  rw [hloop]
  match res, hloop with
  | some cfg, _ => rfl
  | none, _ =>
    exact generateFallbackLevel_isSome word cr.1 cr.2 difficulty g2 (hbres rfl)
      hwlen (by omega) (by omega)

/-- C1 witness: difficulty 1 with the all-zero random source. -/
theorem c1_generator_totality_witness : (generateLevel zeroRng 1).isSome :=
  c1_generator_totality 1 zeroRng (by decide) zeroRng_bounded
